import Mathlib

/-!
Shallow embedding of the slash-segmentation/segtools core
(`pysegtools/images/filters/label.py`, `pysegtools/images/_stack.py`,
`pysegtools/images/io/_stack.py`) together with proofs checking the
natural-language specification against it.

The repository ships optional Cython implementations of the labeling core
that are not part of the source tree; following the source's own fallback
logic (`_get_cython_funcs()` returns `False` when the Cython module cannot
be imported), the pure-Python fallback paths are the embedded code.
-/

namespace Segtools

/-- Python exception classes that the embedded code can raise. -/
inductive PyErr where
  | typeError
  | valueError
  | attributeError
  | indexError
  deriving DecidableEq, Repr

namespace Label

variable {α : Type*} [LinearOrder α]

/-- Embeds `__unique_sorted` (label.py 69-79): `flag[0]=True; flag[1:] = a[1:] != a[:-1];
a.compress(flag)` — keeps the first element and every element different from its
predecessor in the original list. `uniqueSortedTail prev l` handles the tail,
`prev` being the element just before `l` in the original array. -/
def uniqueSortedTail (prev : α) : List α → List α
  | [] => []
  | y :: ys => if y = prev then uniqueSortedTail y ys else y :: uniqueSortedTail y ys

/-- Embeds `__unique_sorted` applied to a whole array. -/
def uniqueSorted : List α → List α
  | [] => []
  | x :: xs => x :: uniqueSortedTail x xs

/-- Embeds `_unique_fast` fallback (label.py 85-93): flatten, early-return when empty,
sort, then `__unique_sorted`. Arrays are embedded as their flattened value
lists; numpy's in-place `sort` is embedded as `mergeSort`. -/
def uniqueFast (a : List α) : List α :=
  if a.length = 0 then a else uniqueSorted (a.mergeSort (· ≤ ·))

/-- numpy `vals.searchsorted(v)` (side `left`): first index at which `v` could
be inserted keeping `vals` sorted, i.e. the number of leading elements `< v`
of the sorted array. -/
def searchsorted (vals : List α) (v : α) : ℕ :=
  match vals with
  | [] => 0
  | x :: xs => if x < v then searchsorted xs v + 1 else 0

/-- Embeds `_number` fallback branch, non-Cython path (label.py 135-161).
`vals = _unique_fast(a)`, `pos0 = vals.searchsorted(0)`,
`out = vals.searchsorted(a)`, `N = len(vals)-1`, then the three-way
zero-position correction. In the first branch Python computes
`N = (len(vals)-1)+1 = len(vals)` (transiently `-1` for the empty array),
embedded directly as `vals.length`; in the other branches `0 ∈ vals`, so
`vals.length - 1` agrees with Python's `int` arithmetic. -/
def numberCore [Zero α] (a : List α) : List ℕ × ℕ :=
  let vals := uniqueFast a
  let pos0 := searchsorted vals 0
  let out := a.map (searchsorted vals)
  if pos0 = vals.length ∨ vals.get? pos0 ≠ some 0 then
    -- out += 1; N += 1 (account for the 0 which did not exist)
    (out.map (· + 1), vals.length)
  else if pos0 ≠ 0 then
    -- out[out<pos0] += 1 (all negatives go up); place(out, a==zero, 0)
    let out2 := out.map (fun r => if r < pos0 then r + 1 else r)
    (((a.zip out2).map (fun p => if p.1 = 0 then 0 else p.2)), vals.length - 1)
  else
    (out, vals.length - 1)

/-- Embeds `_renumber` fallback (label.py 200-211): without the Cython module it
"simply uses `_number`". -/
def renumberCore [Zero α] (a : List α) : List ℕ × ℕ := numberCore a

/-- Embeds `number(im, ordered)` (label.py 279-292): `_number2(im) if ordered else
_renumber2(im)`, acting on the flattened pixel values. The generic element
type covers both the scalar path (`_number`) and, with a lexicographically
ordered row type, the multi-channel row path (`_number_rows`). -/
def number [Zero α] (a : List α) (ordered : Bool) : List ℕ × ℕ :=
  if ordered then numberCore a else renumberCore a

theorem uniqueSortedTail_spec (l : List α) : ∀ prev : α, (prev :: l).Sorted (· ≤ ·) →
    (uniqueSortedTail prev l).Sorted (· < ·)
    ∧ (∀ y ∈ uniqueSortedTail prev l, prev < y)
    ∧ (∀ y, y ∈ uniqueSortedTail prev l ↔ y ∈ l ∧ y ≠ prev) := by
  induction l with
  | nil => intro prev _; simp [uniqueSortedTail]
  | cons y ys ih =>
    intro prev h
    have hy : prev ≤ y := (List.sorted_cons.mp h).1 y (by simp)
    have hys : (y :: ys).Sorted (· ≤ ·) := (List.sorted_cons.mp h).2
    obtain ⟨ihs, ihgt, ihmem⟩ := ih y hys
    by_cases hpy : y = prev
    · subst hpy
      rw [uniqueSortedTail, if_pos rfl]
      refine ⟨ihs, ihgt, fun z => ?_⟩
      rw [ihmem z, List.mem_cons]
      constructor
      · rintro ⟨hz, hne⟩; exact ⟨Or.inr hz, hne⟩
      · rintro ⟨hz | hz, hne⟩
        · exact absurd hz hne
        · exact ⟨hz, hne⟩
    · have hlt : prev < y := lt_of_le_of_ne hy (Ne.symm hpy)
      rw [uniqueSortedTail, if_neg hpy]
      refine ⟨List.sorted_cons.mpr ⟨fun b hb => ihgt b hb, ihs⟩, ?_, ?_⟩
      · intro z hz
        rcases List.mem_cons.mp hz with rfl | hz
        · exact hlt
        · exact hlt.trans (ihgt z hz)
      · intro z
        simp only [List.mem_cons, ihmem z]
        constructor
        · rintro (rfl | ⟨hz, hne⟩)
          · exact ⟨Or.inl rfl, hpy⟩
          · have hyz : y ≤ z := (List.sorted_cons.mp hys).1 z hz
            exact ⟨Or.inr hz, ne_of_gt (lt_of_lt_of_le hlt hyz)⟩
        · rintro ⟨rfl | hz, _⟩
          · exact Or.inl rfl
          · by_cases hzy : z = y
            · exact Or.inl hzy
            · exact Or.inr ⟨hz, hzy⟩

theorem uniqueSorted_sorted {l : List α} (h : l.Sorted (· ≤ ·)) :
    (uniqueSorted l).Sorted (· < ·) := by
  cases l with
  | nil => simp [uniqueSorted]
  | cons x xs =>
    obtain ⟨hs, hgt, _⟩ := uniqueSortedTail_spec xs x h
    exact List.sorted_cons.mpr ⟨hgt, hs⟩

theorem mem_uniqueSorted {l : List α} (h : l.Sorted (· ≤ ·)) (y : α) :
    y ∈ uniqueSorted l ↔ y ∈ l := by
  cases l with
  | nil => simp [uniqueSorted]
  | cons x xs =>
    obtain ⟨_, _, hmem⟩ := uniqueSortedTail_spec xs x h
    simp only [uniqueSorted, List.mem_cons, hmem y]
    constructor
    · rintro (rfl | ⟨hz, _⟩)
      · exact Or.inl rfl
      · exact Or.inr hz
    · rintro (rfl | hz)
      · exact Or.inl rfl
      · by_cases hzx : y = x
        · exact Or.inl hzx
        · exact Or.inr ⟨hz, hzx⟩

theorem mergeSort_sorted_le (a : List α) : (a.mergeSort (· ≤ ·)).Sorted (· ≤ ·) :=
  List.sorted_mergeSort' a

theorem mergeSort_perm_self (a : List α) : List.Perm (a.mergeSort (· ≤ ·)) a :=
  List.mergeSort_perm a _

theorem uniqueFast_sorted (a : List α) : (uniqueFast a).Sorted (· < ·) := by
  unfold uniqueFast
  split
  · next h => simp [List.length_eq_zero.mp h]
  · exact uniqueSorted_sorted (mergeSort_sorted_le a)

theorem mem_uniqueFast (a : List α) (y : α) : y ∈ uniqueFast a ↔ y ∈ a := by
  unfold uniqueFast
  split
  · next h => simp [List.length_eq_zero.mp h]
  · rw [mem_uniqueSorted (mergeSort_sorted_le a) y]
    exact (mergeSort_perm_self a).mem_iff

theorem uniqueFast_nodup (a : List α) : (uniqueFast a).Nodup :=
  (uniqueFast_sorted a).nodup

theorem uniqueFast_toFinset (a : List α) : (uniqueFast a).toFinset = a.toFinset := by
  ext y; simp [mem_uniqueFast]

theorem uniqueFast_length (a : List α) : (uniqueFast a).length = a.toFinset.card := by
  rw [← List.toFinset_card_of_nodup (uniqueFast_nodup a), uniqueFast_toFinset]

theorem searchsorted_eq_countP {vals : List α} (h : vals.Sorted (· < ·)) (v : α) :
    searchsorted vals v = vals.countP (fun u => decide (u < v)) := by
  induction vals with
  | nil => simp [searchsorted]
  | cons x xs ih =>
    rw [searchsorted, List.countP_cons]
    by_cases hx : x < v
    · rw [if_pos hx, ih (List.sorted_cons.mp h).2]
      simp [hx]
    · rw [if_neg hx]
      have hz : xs.countP (fun u => decide (u < v)) = 0 := by
        rw [List.countP_eq_zero]
        intro u hu
        have : x < u := (List.sorted_cons.mp h).1 u hu
        simp only [decide_eq_true_eq]
        exact fun huv => hx (this.trans huv)
      simp [hz, hx]

theorem searchsorted_eq_card {vals : List α} (hnd : vals.Nodup)
    (h : vals.Sorted (· < ·)) (v : α) :
    searchsorted vals v = (vals.toFinset.filter (fun u => u < v)).card := by
  rw [searchsorted_eq_countP h v, List.countP_eq_length_filter,
    ← List.toFinset_card_of_nodup (hnd.filter _), List.toFinset_filter]
  congr 1
  apply Finset.filter_congr
  intro u _
  simp

theorem searchsorted_get {vals : List α} (h : vals.Sorted (· < ·)) (k : Fin vals.length) :
    searchsorted vals (vals.get k) = k := by
  induction vals with
  | nil => exact absurd k.2 (by simp)
  | cons x xs ih =>
    rcases k with ⟨i, hi⟩
    cases i with
    | zero => simp [searchsorted]
    | succ j =>
      have hj : j < xs.length := Nat.lt_of_succ_lt_succ hi
      have hx : x < xs.get ⟨j, hj⟩ :=
        (List.sorted_cons.mp h).1 _ (List.get_mem xs j hj)
      have hstep : (x :: xs).get ⟨j + 1, hi⟩ = xs.get ⟨j, hj⟩ := rfl
      have ihj := ih (List.sorted_cons.mp h).2 ⟨j, hj⟩
      rw [hstep]
      show (if x < xs.get ⟨j, hj⟩ then searchsorted xs (xs.get ⟨j, hj⟩) + 1 else 0) = j + 1
      rw [if_pos hx, ihj]

/-- The per-pixel value map induced by `numberCore`: entry `i` of the output
equals `numMap a` applied to entry `i` of the input (`number_fst` below);
it mirrors the three zero-correction branches of `_number`. -/
def numMap [Zero α] (a : List α) (v : α) : ℕ :=
  let vals := uniqueFast a
  let pos0 := searchsorted vals 0
  if pos0 = vals.length ∨ vals.get? pos0 ≠ some 0 then searchsorted vals v + 1
  else if pos0 ≠ 0 then
    if v = 0 then 0
    else if searchsorted vals v < pos0 then searchsorted vals v + 1 else searchsorted vals v
  else searchsorted vals v

theorem number_eq_numberCore [Zero α] (a : List α) (ordered : Bool) :
    number a ordered = numberCore a := by
  cases ordered <;> rfl

omit [LinearOrder α] in
theorem zip_map_self {β γ : Type*} (a : List α) (h : α → β) (F : α × β → γ) :
    (a.zip (a.map h)).map F = a.map fun v => F (v, h v) := by
  induction a with
  | nil => rfl
  | cons x xs ih => simp [ih]

theorem number_fst [Zero α] (a : List α) (ordered : Bool) :
    (number a ordered).1 = a.map (numMap a) := by
  rw [number_eq_numberCore]
  by_cases h1 : searchsorted (uniqueFast a) 0 = (uniqueFast a).length
      ∨ (uniqueFast a).get? (searchsorted (uniqueFast a) 0) ≠ some 0
  · simp only [numberCore, if_pos h1, List.map_map]
    exact List.map_congr_left fun v _ => by simp only [numMap, if_pos h1, Function.comp]
  · by_cases h2 : searchsorted (uniqueFast a) 0 ≠ 0
    · simp only [numberCore, if_neg h1, if_pos h2, List.map_map, zip_map_self]
      exact List.map_congr_left fun v _ => by
        simp only [numMap, if_neg h1, if_pos h2, Function.comp]
    · simp only [numberCore, if_neg h1, if_neg h2]
      exact List.map_congr_left fun v _ => by simp only [numMap, if_neg h1, if_neg h2]

theorem numberCond_iff [Zero α] (a : List α) :
    (searchsorted (uniqueFast a) 0 = (uniqueFast a).length
      ∨ (uniqueFast a).get? (searchsorted (uniqueFast a) 0) ≠ some 0)
    ↔ (0 : α) ∉ a := by
  constructor
  · intro h h0
    obtain ⟨k, hk⟩ := List.mem_iff_get.mp ((mem_uniqueFast a 0).mpr h0)
    have hss : searchsorted (uniqueFast a) 0 = k := by
      rw [← hk]; exact searchsorted_get (uniqueFast_sorted a) k
    rcases h with h | h
    · rw [hss] at h; exact absurd h (Nat.ne_of_lt k.2)
    · apply h
      rw [hss, List.get?_eq_get k.2]
      simpa using hk
  · intro h0
    by_cases hlen : searchsorted (uniqueFast a) 0 = (uniqueFast a).length
    · exact Or.inl hlen
    · refine Or.inr fun hc => h0 ?_
      exact (mem_uniqueFast a 0).mp (List.get?_mem hc)

theorem number_snd [Zero α] (a : List α) (ordered : Bool) :
    (number a ordered).2 = (a.toFinset.erase 0).card := by
  rw [number_eq_numberCore]
  by_cases h1 : searchsorted (uniqueFast a) 0 = (uniqueFast a).length
      ∨ (uniqueFast a).get? (searchsorted (uniqueFast a) 0) ≠ some 0
  · have h0 : (0 : α) ∉ a := (numberCond_iff a).mp h1
    simp only [numberCore, if_pos h1]
    rw [uniqueFast_length a, Finset.erase_eq_of_not_mem (by simpa using h0)]
  · have h0 : (0 : α) ∈ a := by
      by_contra hc; exact h1 ((numberCond_iff a).mpr hc)
    have hN : ((a.toFinset.erase 0).card : ℕ) = a.toFinset.card - 1 :=
      Finset.card_erase_of_mem (List.mem_toFinset.mpr h0)
    by_cases h2 : searchsorted (uniqueFast a) 0 ≠ 0
    · simp only [numberCore, if_neg h1, if_pos h2]
      rw [uniqueFast_length a, hN]
    · simp only [numberCore, if_neg h1, if_neg h2]
      rw [uniqueFast_length a, hN]

theorem numMap_eq [Zero α] {a : List α} {v : α} (hv : v ∈ a) :
    numMap a v = if v = 0 then 0
      else ((a.toFinset.erase 0).filter (fun u => u < v)).card + 1 := by
  have hsrt := uniqueFast_sorted a
  have hnd := uniqueFast_nodup a
  have hcard : ∀ w : α, searchsorted (uniqueFast a) w
      = (a.toFinset.filter (fun u => u < w)).card := fun w => by
    rw [searchsorted_eq_card hnd hsrt w, uniqueFast_toFinset]
  by_cases h0 : (0 : α) ∈ a
  · have hcond : ¬(searchsorted (uniqueFast a) 0 = (uniqueFast a).length
        ∨ (uniqueFast a).get? (searchsorted (uniqueFast a) 0) ≠ some 0) :=
      fun hc => (numberCond_iff a).mp hc h0
    have h0S : (0 : α) ∈ a.toFinset := List.mem_toFinset.mpr h0
    have hvS : v ∈ a.toFinset := List.mem_toFinset.mpr hv
    have hposcard : ∀ w : α, 0 < w →
        ((a.toFinset.erase 0).filter (fun u => u < w)).card + 1
          = (a.toFinset.filter (fun u => u < w)).card := fun w hw => by
      rw [Finset.filter_erase]
      exact Finset.card_erase_add_one (Finset.mem_filter.mpr ⟨h0S, hw⟩)
    have hnegcard : ∀ w : α, w < 0 →
        ((a.toFinset.erase 0).filter (fun u => u < w)).card
          = (a.toFinset.filter (fun u => u < w)).card := fun w hw => by
      rw [Finset.filter_erase]
      refine congrArg Finset.card (Finset.erase_eq_of_not_mem fun hmem => ?_)
      exact absurd ((Finset.mem_filter.mp hmem).2.trans hw) (lt_irrefl 0)
    by_cases hp : searchsorted (uniqueFast a) 0 ≠ 0
    · simp only [numMap]
      rw [if_neg hcond, if_pos hp]
      by_cases hv0 : v = 0
      · rw [if_pos hv0, if_pos hv0]
      · rw [if_neg hv0, if_neg hv0]
        rcases lt_or_gt_of_ne hv0 with hneg | hpos
        · have hlt : searchsorted (uniqueFast a) v < searchsorted (uniqueFast a) 0 := by
            rw [hcard v, hcard 0]
            apply Finset.card_lt_card
            rw [Finset.ssubset_iff_of_subset
              (Finset.monotone_filter_right _ fun u hu => hu.trans hneg)]
            exact ⟨v, Finset.mem_filter.mpr ⟨hvS, hneg⟩,
              fun hm => absurd (Finset.mem_filter.mp hm).2 (lt_irrefl v)⟩
          rw [if_pos hlt, hcard v, hnegcard v hneg]
        · have hle : searchsorted (uniqueFast a) 0 ≤ searchsorted (uniqueFast a) v := by
            rw [hcard 0, hcard v]
            exact Finset.card_le_card
              (Finset.monotone_filter_right _ fun u hu => hu.trans hpos)
          rw [if_neg (not_lt.mpr hle), hcard v, hposcard v hpos]
    · simp only [numMap]
      rw [if_neg hcond, if_neg hp]
      have hp0 : searchsorted (uniqueFast a) 0 = 0 := not_not.mp hp
      have hnoneg : ∀ u ∈ a.toFinset, ¬u < 0 := by
        intro u hu hult
        have hc0 := hcard 0
        rw [hp0] at hc0
        have hempty : a.toFinset.filter (fun u => u < 0) = ∅ :=
          Finset.card_eq_zero.mp hc0.symm
        have : u ∈ a.toFinset.filter (fun u => u < 0) :=
          Finset.mem_filter.mpr ⟨hu, hult⟩
        rw [hempty] at this
        exact absurd this (Finset.not_mem_empty u)
      by_cases hv0 : v = 0
      · rw [if_pos hv0, hv0, hp0]
      · rw [if_neg hv0]
        have hpos : 0 < v := lt_of_le_of_ne (not_lt.mp (hnoneg v hvS)) (Ne.symm hv0)
        rw [hcard v, ← hposcard v hpos]
  · have hcond := (numberCond_iff a).mpr h0
    have hv0 : v ≠ 0 := fun hh => h0 (hh ▸ hv)
    simp only [numMap]
    rw [if_pos hcond, if_neg hv0, hcard v,
      Finset.erase_eq_of_not_mem fun hm => h0 (List.mem_toFinset.mp hm)]

theorem numMap_zero_iff [Zero α] {a : List α} {v : α} (hv : v ∈ a) :
    numMap a v = 0 ↔ v = 0 := by
  rw [numMap_eq hv]
  by_cases hv0 : v = 0 <;> simp [hv0]

theorem numMap_pos_le [Zero α] {a : List α} {v : α} (hv : v ∈ a) (hv0 : v ≠ 0) :
    1 ≤ numMap a v ∧ numMap a v ≤ (a.toFinset.erase 0).card := by
  rw [numMap_eq hv, if_neg hv0]
  refine ⟨Nat.le_add_left 1 _, ?_⟩
  have hvS : v ∈ a.toFinset.erase 0 :=
    Finset.mem_erase.mpr ⟨hv0, List.mem_toFinset.mpr hv⟩
  have hss : (a.toFinset.erase 0).filter (fun u => u < v) ⊂ a.toFinset.erase 0 := by
    rw [Finset.ssubset_iff_of_subset (Finset.filter_subset _ _)]
    exact ⟨v, hvS, fun hm => absurd (Finset.mem_filter.mp hm).2 (lt_irrefl v)⟩
  exact Nat.succ_le_of_lt (Finset.card_lt_card hss)

theorem numMap_strictMono [Zero α] {a : List α} {u v : α} (hu : u ∈ a) (hv : v ∈ a)
    (hu0 : u ≠ 0) (hv0 : v ≠ 0) (huv : u < v) : numMap a u < numMap a v := by
  rw [numMap_eq hu, if_neg hu0, numMap_eq hv, if_neg hv0]
  apply Nat.succ_lt_succ
  apply Finset.card_lt_card
  rw [Finset.ssubset_iff_of_subset
    (Finset.monotone_filter_right _ fun w hw => hw.trans huv)]
  refine ⟨u, Finset.mem_filter.mpr
    ⟨Finset.mem_erase.mpr ⟨hu0, List.mem_toFinset.mpr hu⟩, huv⟩,
    fun hm => absurd (Finset.mem_filter.mp hm).2 (lt_irrefl u)⟩

theorem numMap_inj [Zero α] {a : List α} {u v : α} (hu : u ∈ a) (hv : v ∈ a) :
    numMap a u = numMap a v ↔ u = v := by
  constructor
  · intro h
    by_contra hne
    by_cases hu0 : u = 0
    · have hv0 : v ≠ 0 := fun hh => hne (by rw [hu0, hh])
      rw [hu0, (numMap_zero_iff ((hu0 : u = 0) ▸ hu)).mpr rfl] at h
      exact absurd h.symm (Nat.ne_of_gt (numMap_pos_le hv hv0).1)
    · by_cases hv0 : v = 0
      · rw [hv0, (numMap_zero_iff ((hv0 : v = 0) ▸ hv)).mpr rfl] at h
        exact absurd h (Nat.ne_of_gt (numMap_pos_le hu hu0).1)
      · rcases lt_or_gt_of_ne hne with hlt | hgt
        · exact absurd h (Nat.ne_of_lt (numMap_strictMono hu hv hu0 hv0 hlt))
        · exact absurd h.symm (Nat.ne_of_lt (numMap_strictMono hv hu hv0 hu0 hgt))
  · rintro rfl; rfl

theorem numMap_lt_iff [Zero α] {a : List α} {u v : α} (hu : u ∈ a) (hv : v ∈ a)
    (hu0 : u ≠ 0) (hv0 : v ≠ 0) :
    numMap a u < numMap a v ↔ u < v := by
  constructor
  · intro h
    by_contra hle
    rw [not_lt] at hle
    rcases eq_or_lt_of_le hle with rfl | hlt
    · exact absurd h (lt_irrefl _)
    · exact absurd (h.trans (numMap_strictMono hv hu hv0 hu0 hlt)) (lt_irrefl _)
  · exact numMap_strictMono hu hv hu0 hv0

theorem numMap_surj [Zero α] (a : List α) (k : ℕ) (h1 : 1 ≤ k)
    (h2 : k ≤ (a.toFinset.erase 0).card) :
    ∃ v ∈ a, v ≠ 0 ∧ numMap a v = k := by
  have hinj : Set.InjOn (numMap a) (a.toFinset.erase 0) := by
    intro x hx y hy hxy
    have hx' := Finset.mem_erase.mp (Finset.mem_coe.mp hx)
    have hy' := Finset.mem_erase.mp (Finset.mem_coe.mp hy)
    exact (numMap_inj (List.mem_toFinset.mp hx'.2) (List.mem_toFinset.mp hy'.2)).mp hxy
  have hcardT : ((a.toFinset.erase 0).image (numMap a)).card
      = (a.toFinset.erase 0).card := Finset.card_image_of_injOn hinj
  have hsubset : (a.toFinset.erase 0).image (numMap a)
      ⊆ Finset.Icc 1 (a.toFinset.erase 0).card := by
    intro n hn
    obtain ⟨v, hv, rfl⟩ := Finset.mem_image.mp hn
    have hv' := Finset.mem_erase.mp hv
    exact Finset.mem_Icc.mpr (numMap_pos_le (List.mem_toFinset.mp hv'.2) hv'.1)
  have hIcc : (Finset.Icc 1 (a.toFinset.erase 0).card).card
      = (a.toFinset.erase 0).card := by
    rw [Nat.card_Icc]; omega
  have hTeq : (a.toFinset.erase 0).image (numMap a)
      = Finset.Icc 1 (a.toFinset.erase 0).card :=
    Finset.eq_of_subset_of_card_le hsubset (by rw [hIcc, hcardT])
  have hk : k ∈ (a.toFinset.erase 0).image (numMap a) := by
    rw [hTeq]; exact Finset.mem_Icc.mpr ⟨h1, h2⟩
  obtain ⟨v, hv, hveq⟩ := Finset.mem_image.mp hk
  have hv' := Finset.mem_erase.mp hv
  exact ⟨v, List.mem_toFinset.mp hv'.2, hv'.1, hveq⟩

theorem number_length [Zero α] (a : List α) (ordered : Bool) :
    (number a ordered).1.length = a.length := by
  rw [number_fst]; exact List.length_map a _

theorem number_getD [Zero α] (a : List α) (ordered : Bool) {i : ℕ}
    (hi : i < a.length) :
    (number a ordered).1.getD i 0 = numMap a (a.get ⟨i, hi⟩) := by
  rw [number_fst]
  simp [List.getD_eq_getElem?_getD, List.getElem?_map, List.getElem?_eq_getElem hi]

/-- C1: for every image — embedded as its flattened list of pixel values, over
any linearly ordered value type with a zero element, so that scalar pixels and
lex-ordered multi-channel rows are both covered — `number` in both ordered
(`_number2`) and unordered (`_renumber2`) mode returns a relabeled array of
the same length and a count `N` such that: an entry is assigned 0 iff its
value is exactly zero; equal values receive equal identifiers and distinct
values distinct ones; the identifier of every nonzero value lies in `1..N`
and every identifier in `1..N` is assigned to some nonzero value (no gaps);
`N` is the number of distinct nonzero values; and in ordered mode the
identifiers of the nonzero values are ordered exactly as the values are. -/
theorem C1_number_claim [Zero α] (a : List α) (ordered : Bool) :
    (number a ordered).1.length = a.length
    ∧ (number a ordered).2 = (a.toFinset.erase 0).card
    ∧ (∀ i (hi : i < a.length),
        ((number a ordered).1.getD i 0 = 0 ↔ a.get ⟨i, hi⟩ = 0)
        ∧ (a.get ⟨i, hi⟩ ≠ 0 → 1 ≤ (number a ordered).1.getD i 0
            ∧ (number a ordered).1.getD i 0 ≤ (number a ordered).2))
    ∧ (∀ i j (hi : i < a.length) (hj : j < a.length),
        ((number a ordered).1.getD i 0 = (number a ordered).1.getD j 0
          ↔ a.get ⟨i, hi⟩ = a.get ⟨j, hj⟩))
    ∧ (∀ k, 1 ≤ k → k ≤ (number a ordered).2 →
        ∃ i, ∃ hi : i < a.length,
          a.get ⟨i, hi⟩ ≠ 0 ∧ (number a ordered).1.getD i 0 = k)
    ∧ (ordered = true → ∀ i j (hi : i < a.length) (hj : j < a.length),
        a.get ⟨i, hi⟩ ≠ 0 → a.get ⟨j, hj⟩ ≠ 0 →
        ((number a ordered).1.getD i 0 < (number a ordered).1.getD j 0
          ↔ a.get ⟨i, hi⟩ < a.get ⟨j, hj⟩)) := by
  refine ⟨number_length a ordered, number_snd a ordered, ?_, ?_, ?_, ?_⟩
  · intro i hi
    rw [number_getD a ordered hi]
    constructor
    · exact numMap_zero_iff (List.get_mem a i hi)
    · intro hne
      rw [number_snd a ordered]
      exact numMap_pos_le (List.get_mem a i hi) hne
  · intro i j hi hj
    rw [number_getD a ordered hi, number_getD a ordered hj]
    exact numMap_inj (List.get_mem a i hi) (List.get_mem a j hj)
  · intro k hk1 hk2
    rw [number_snd a ordered] at hk2
    obtain ⟨v, hv, hv0, hveq⟩ := numMap_surj a k hk1 hk2
    obtain ⟨⟨i, hi⟩, hgi⟩ := List.mem_iff_get.mp hv
    refine ⟨i, hi, ?_, ?_⟩
    · rw [hgi]; exact hv0
    · rw [number_getD a ordered hi, hgi, hveq]
  · intro _ i j hi hj hne1 hne2
    rw [number_getD a ordered hi, number_getD a ordered hj]
    exact numMap_lt_iff (List.get_mem a i hi) (List.get_mem a j hj) hne1 hne2

/-- Witness for `C1_number_claim` at the concrete image `[3, 0, -2, 3]`
(ordered mode): the nonzero pixel at index 0 gets an identifier in `1..N`,
and the order of the identifiers at indices 2 and 0 matches `-2 < 3`. -/
theorem C1_number_claim_witness :
    (1 ≤ (number ([3, 0, -2, 3] : List ℤ) true).1.getD 0 0
      ∧ (number ([3, 0, -2, 3] : List ℤ) true).1.getD 0 0
          ≤ (number ([3, 0, -2, 3] : List ℤ) true).2)
    ∧ ((number ([3, 0, -2, 3] : List ℤ) true).1.getD 2 0
          < (number ([3, 0, -2, 3] : List ℤ) true).1.getD 0 0
        ↔ (-2 : ℤ) < 3) := by
  obtain ⟨-, -, hzero, -, -, hord⟩ := C1_number_claim ([3, 0, -2, 3] : List ℤ) true
  refine ⟨(hzero 0 (by decide)).2 (by decide), ?_⟩
  exact hord rfl 2 0 (by decide) (by decide) (by decide) (by decide)

/-- Embeds `_unique_merge` fallback (label.py 104-118). Both inputs of the same
element type (the `dtype` mismatch `ValueError` is excluded by typing); when
both are non-empty the source executes `a = concatenate((a, b));
a.sort(kind='mergesort'); return __unique_sorted()` — calling
`__unique_sorted` with NO argument, which raises `TypeError` (a required
positional argument is missing). -/
def uniqueMerge (a b : List α) : Except PyErr (List α) :=
  if a.length = 0 then .ok b
  else if b.length = 0 then .ok a
  else .error .typeError

/-- C3: the claim asserts that the unique-merge primitive, on sorted
duplicate-free inputs, returns the sorted duplicate-free union. The fallback
`_unique_merge` satisfies the empty cases (`merge(x, empty) == x`) but on ANY
two non-empty inputs — here the sorted unique arrays `[1]` and `[2]` — it
raises `TypeError`, because line 118 calls `__unique_sorted()` without its
required positional argument, so the claimed union `[1, 2]` is never
produced. -/
theorem C3_unique_merge_claim :
    uniqueMerge ([1] : List ℤ) [2] = .error .typeError
    ∧ uniqueMerge ([1] : List ℤ) [] = .ok [1]
    ∧ uniqueMerge ([] : List ℤ) [2] = .ok [2] := by
  exact ⟨rfl, rfl, rfl⟩

end Label

namespace Shrink

/-- A numpy integer element type: signedness and byte width (the
`int8/16/32/64` and `uint8/16/32/64` ladders of `numpy.sctypes`). -/
structure IntDType where
  signed : Bool
  itemsize : ℕ
  deriving DecidableEq, Repr

/-- Modelled from the spec: §4.1 — the element-type model "exposes min/max
representable value for each integer type" (`get_dtype_max` lives in
`pysegtools/images/types.py`, absent from the given source); standard
two's-complement ranges. -/
def getDtypeMax (dt : IntDType) : ℤ :=
  if dt.signed then 2 ^ (8 * dt.itemsize - 1) - 1 else 2 ^ (8 * dt.itemsize) - 1

/-- Modelled from the spec: §4.1, minimum representable value
(`get_dtype_min` of `pysegtools/images/types.py`). -/
def getDtypeMin (dt : IntDType) : ℤ :=
  if dt.signed then -(2 ^ (8 * dt.itemsize - 1)) else 0

/-- Embeds `numpy.sctypes['int']` / `['uint']`: candidate ladder in ascending width. -/
def sctypes (signed : Bool) : List IntDType :=
  [⟨signed, 1⟩, ⟨signed, 2⟩, ⟨signed, 4⟩, ⟨signed, 8⟩]

/-- Python `min(iterable, key=f)`: the FIRST element attaining the minimal
key (later elements replace the best only when strictly smaller). -/
def pyMinByKey {β : Type*} (key : β → ℕ) : List β → Option β
  | [] => none
  | x :: xs => some (xs.foldl (fun best y => if key y < key best then y else best) x)

/-- Embeds `_shrink_int_dtype_raw(mn, mx, min_dt)` (label.py 334-347): picks from the
u/int ladder the candidate minimizing `f(dt) = dt.itemsize if covered else
1000`; raises `ValueError` when converting negatives to unsigned or when no
candidate covers. `min_dt` contributes ONLY its kind — its width never enters
`f`. -/
def shrinkIntDtypeRaw (mn mx : ℤ) (minDt : IntDType) : Except PyErr IntDType :=
  if minDt.signed = false then
    if mn < 0 then .error .valueError
    else
      let f := fun dt : IntDType => if getDtypeMax dt ≥ mx then dt.itemsize else 1000
      match pyMinByKey f (sctypes false) with
      | none => .error .valueError
      | some dt => if f dt = 1000 then .error .valueError else .ok dt
  else
    let f := fun dt : IntDType =>
      if getDtypeMax dt ≥ mx ∧ getDtypeMin dt ≤ mn then dt.itemsize else 1000
    match pyMinByKey f (sctypes true) with
    | none => .error .valueError
    | some dt => if f dt = 1000 then .error .valueError else .ok dt

/-- An integer image: its element type and its (non-empty) pixel values. -/
structure IntImage where
  dtype : IntDType
  pixel0 : ℤ
  rest : List ℤ
  deriving Repr

def IntImage.minVal (im : IntImage) : ℤ := im.rest.foldl min im.pixel0

def IntImage.maxVal (im : IntImage) : ℤ := im.rest.foldl max im.pixel0

/-- Embeds `_shrink_int_dtype(im, min_dt)` (label.py 328-333): integral-kind check is
carried by the `IntImage` type; `min_dt` defaults to `uint8`/`int8` matching
the image's signedness; `mn` is 0 for unsigned images, else the image minimum. -/
def shrinkIntDtype (im : IntImage) (minDt : Option IntDType) : Except PyErr IntDType :=
  let unsigned := im.dtype.signed = false
  let minDt := minDt.getD (if unsigned then ⟨false, 1⟩ else ⟨true, 1⟩)
  let mn := if unsigned then 0 else im.minVal
  shrinkIntDtypeRaw mn mx minDt
where mx := im.maxVal

/-- C7: the claim (and the function's own docstring: "the integer size won't
be reduced below that") requires the result to be at or above the minimum
width `min_dt`. Evaluating the embedded `_shrink_int_dtype` on a `uint32`
image with values `{0, 1}` and `min_dt = uint16` yields `uint8`: the
candidate key function of `_shrink_int_dtype_raw` never consults
`min_dt.itemsize`, so the image is shrunk below the requested 2-byte
minimum. -/
theorem C7_shrink_integer_claim :
    shrinkIntDtype ⟨⟨false, 4⟩, 0, [1]⟩ (some ⟨false, 2⟩) = .ok ⟨false, 1⟩
    ∧ (1 : ℕ) < (IntDType.mk false 2).itemsize := by
  exact ⟨rfl, by decide⟩

end Shrink

namespace Cache

/-- LRU cache state of `ImageStack` (_stack.py): `_cache` is an `OrderedDict`
of cached indices — least recently used first, `popitem(False)` pops the
front; `_cache_size` is `-1` for unlimited, `0` for off, `> 0` for a bounded
cache. `resident` is the set of indices whose slice holds a cached payload
(`slice._cache is not None`). -/
structure CacheState where
  cacheSize : ℤ
  cache : List ℕ
  resident : Finset ℕ
  deriving DecidableEq

/-- Embeds `ImageStack._cache_it(i)` (_stack.py 163-171). `self._cache.pop(i, False)`
removes `i`, remembering whether it was present; when `i` was absent and the
cache is at capacity the code evaluates
`self._slices[self._cache.popitem(False)]._cache = None`: `popitem` returns
the `(index, True)` PAIR, and indexing the slice list with a tuple raises
`TypeError`, so the eviction (and the re-insertion `self._cache[i] = True`)
never happens. On the non-eviction paths `i` is appended as most recently
used and the function reports whether it was already cached. -/
def cacheIt (st : CacheState) (i : ℕ) : Except PyErr (Bool × CacheState) :=
  let present := i ∈ st.cache
  let cache' := st.cache.erase i
  if ¬present ∧ (cache'.length : ℤ) = st.cacheSize then
    .error .typeError
  else
    .ok (present, { st with cache := cache' ++ [i] })

/-- Embeds `ImageSlice.data` (_stack.py 264-268): with caching off the data is
computed directly; otherwise `_cache_it` runs and, on a miss, the freshly
loaded payload becomes resident. -/
def sliceData (st : CacheState) (i : ℕ) : Except PyErr CacheState :=
  if st.cacheSize = 0 then .ok st
  else
    match cacheIt st i with
    | .error e => .error e
    | .ok (true, st') => .ok st'
    | .ok (false, st') => .ok { st' with resident := insert i st'.resident }

/-- C4: with `cache_size = 1`, the first access caches slice 0; the claim says
the second access (to the absent index 1, cache at capacity) must evict the
LRU index and insert 1, but the embedded `_cache_it` raises `TypeError`
because `popitem`'s key/value pair — not the key — is used to index the
slice list. A repeated access to a resident index (second conjunct) does
follow the claim, reporting a hit with unchanged residency. -/
theorem C4_lru_cache_claim :
    (match sliceData ⟨1, [], ∅⟩ 0 with
      | .ok st1 => sliceData st1 1
      | .error e => .error e) = .error .typeError
    ∧ sliceData ⟨1, [0], {0}⟩ 0 = .ok ⟨1, [0], {0}⟩ := by
  constructor
  · rfl
  · rfl

end Cache

namespace ArrInit

/-- Python values flowing through the `ImageStackArray` constructor chain:
integers, a numpy dtype (only its field count matters to `len`), and the
list of `ImageSliceFromArray` objects (only its length matters). -/
inductive PyVal where
  | int (n : ℤ)
  | dtypeVal (fields : ℕ)
  | sliceList (n : ℕ)
  deriving DecidableEq, Repr

/-- Python `len(v)`: lists have their length, a numpy dtype has its number of
named fields (0 for a plain dtype), integers raise `TypeError`. -/
def pyLen : PyVal → Except PyErr ℕ
  | .int _ => .error .typeError
  | .dtypeVal f => .ok f
  | .sliceList n => .ok n

/-- Python `a * b` for the combinations reachable here: `int * int`
multiplies; `list * int` (or `int * list`) repeats the list (clamping
negative counts to zero); anything else raises `TypeError`. -/
def pyMul : PyVal → PyVal → Except PyErr PyVal
  | .int a, .int b => .ok (.int (a * b))
  | .sliceList n, .int k => .ok (.sliceList (n * k.toNat))
  | .int k, .sliceList n => .ok (.sliceList (n * k.toNat))
  | _, _ => .error .typeError

/-- Python `v.itemsize`: only a numpy dtype has it (byte width, the value is
irrelevant here); ints and lists raise `AttributeError`. -/
def pyItemsize : PyVal → Except PyErr ℤ
  | .dtypeVal _ => .ok 1
  | _ => .error .attributeError

/-- Fields set by `ImageStack.__init__(self, slices)` (_stack.py 54-59):
`self._slices = slices`, `self._d = len(slices)`, and the `d ≤ 1`
homogeneity default. -/
structure ImageStackFields where
  slices : PyVal
  d : ℕ
  homogeneousBoth : Bool
  deriving Repr

def imageStackInit (slices : PyVal) : Except PyErr ImageStackFields := do
  let d ← pyLen slices
  .ok ⟨slices, d, d ≤ 1⟩

/-- Fields set by `HomogeneousImageStack.__init__(self, w, h, dtype, slices)`
(_stack.py 193-213) with `super_init_args = None` and `slices ≠ None`:
delegates to `ImageStack.__init__(slices)`, then assigns `_w`, `_h`,
`_shape = (h, w)`, `_dtype`, `_slc_pxls = w * h` and
`_slc_bytes = w * h * dtype.itemsize` in statement order. -/
structure HomStackFields where
  base : ImageStackFields
  w : PyVal
  h : PyVal
  shape : PyVal × PyVal
  dtype : PyVal
  slcPxls : PyVal
  slcBytes : PyVal
  deriving Repr

def homogeneousImageStackInit (w h dtype slices : PyVal) :
    Except PyErr HomStackFields := do
  let base ← imageStackInit slices
  let slcPxls ← pyMul w h
  let wh ← pyMul w h
  let isize ← pyItemsize dtype
  let slcBytes ← pyMul wh (.int isize)
  .ok ⟨base, w, h, (h, w), dtype, slcPxls, slcBytes⟩

/-- Embeds `ImageStackArray.__init__(self, arr)` (_stack.py 284-291) for a valid
3-d array of shape `(d, hh, ww)` whose element dtype has `fields` named
fields (0 for single-channel): after `check_image` passes, the source calls
`super(ImageStackArray, self).__init__([ImageSliceFromArray(self, z) ...],
sh[2], sh[1], dt)` — binding POSITIONALLY `w := the slice list`,
`h := sh[2] = ww`, `dtype := sh[1] = hh`, `slices := dt`. -/
def imageStackArrayInit (d hh ww fields : ℕ) : Except PyErr HomStackFields :=
  homogeneousImageStackInit (.sliceList d) (.int ww) (.int hh) (.dtypeVal fields)

/-- C9: the claim says `ImageStackArray` construction succeeds with length
`arr.shape[0]`, shape `(arr.shape[1], arr.shape[2])` and the array's dtype.
Instead, for EVERY array shape the constructor raises `AttributeError`: the
positional-argument mix-up makes `dtype` the integer `sh[1]`, and evaluating
`self._slc_bytes = w * h * dtype.itemsize` asks an `int` for `.itemsize`.
(Before that, `self._d = len(slices)` had already become the dtype's field
count — 0 for a plain dtype — rather than `arr.shape[0]`.) -/
theorem C9_image_stack_array_claim :
    ∀ d hh ww fields : ℕ,
      imageStackArrayInit d hh ww fields = .error .attributeError := by
  intro d hh ww fields
  rfl

end ArrInit

namespace SetSlice

variable {γ : Type*}

/-- Python list-index normalization for slice bounds: negative indices count
from the end, then the result is clamped into `[0, len]`. -/
def pyNorm (len : ℕ) (i : ℤ) : ℕ :=
  if i < 0 then (max (i + len) 0).toNat else min i.toNat len

/-- Python `del lst[start:stop]`: removes the elements at the normalized
positions `[start', stop')` (nothing when `stop' ≤ start'`). -/
def pyDelSlice (l : List γ) (start stop : ℤ) : List γ :=
  l.take (pyNorm l.length start)
    ++ l.drop (max (pyNorm l.length start) (pyNorm l.length stop))

/-- Embeds `_delete(idxs)` per its contract (io/_stack.py 244-258): each `(start,
stop)` range is removed via `_delete_slices`, i.e.
`del self._slices[start:stop]`, in list order. -/
def deleteRanges (l : List γ) : List (ℤ × ℤ) → List γ
  | [] => l
  | (s, e) :: rest => deleteRanges (pyDelSlice l s e) rest

/-- Embeds `_insert(idx, ims)` per its contract (io/_stack.py 260-275) backed by
`_insert_slices` (295-305): `self._slices[idx:idx] = slices`. -/
def insertAt (l : List γ) (idx : ℕ) (ims : List γ) : List γ :=
  l.take idx ++ ims ++ l.drop idx

/-- Ceiling division on ℤ for `b ≠ 0`: `int(ceil((stop-start)/step))`. -/
def cdiv (a b : ℤ) : ℤ :=
  if 0 < b then (a + b - 1) / b else (-a + -b - 1) / -b

/-- Embeds `slice_len(start, stop, step)` (io/_stack.py 26):
`max(int(ceil((stop-start)/step)), 0)`. -/
def sliceLen (start stop step : ℤ) : ℕ := (max (cdiv (stop - start) step) 0).toNat

/-- Python `ims[:length-1:-1]` as used at io/_stack.py 362: the reversed tail
`ims[length:]` for `length ≥ 1`; for `length = 0` the stop index `-1` means
`len(ims)-1`, so the slice is empty. -/
def pyRevSliceTail (ims : List γ) (length : ℕ) : List γ :=
  if length = 0 then [] else (ims.drop length).reverse

/-- Embeds `FileImageStack.__set_slice` (io/_stack.py 350-365), taking the
`idx.indices(self._d)`-normalized `(start, stop, step)` triple and the
supplied images. Each per-position replacement
`self._slices[start+i*step].data = ims[i]` raises `AttributeError`:
`ImageSlice.data` (images/_stack.py 264-268) is a getter-only property and
`FileImageSlice` binds `@ImageSlice.data.setter` to the name `set_data`
(io/_stack.py 475-477), leaving `data` without a setter. The loop runs
`min(length, len(ims))` iterations, so it raises exactly when the target
span and the supply are both non-empty, before any state change; the
delete/insert branches after it (and the `|step|>1` ValueError, raised
before the loop over the supplied images) are reached as in the source. -/
def setSliceRange (l : List γ) (start stop step : ℤ) (ims : List γ) :
    Except PyErr (List γ) :=
  let length := sliceLen start stop step
  if step = 1 then
    if min length ims.length ≠ 0 then .error .attributeError
    else if ims.length < length then .ok (pyDelSlice l (start + ims.length) stop)
    else if ims.length > length then
      .ok (insertAt l stop.toNat (ims.drop length))
    else .ok l
  else if step = -1 then
    if min length ims.length ≠ 0 then .error .attributeError
    else if ims.length < length then
      -- self._delete([(stop, start-len(ims)+1)])
      .ok (pyDelSlice l stop (start - ims.length + 1))
    else if ims.length > length then
      -- self._insert(stop+1, ims[:length-1:-1])
      .ok (insertAt l (stop + 1).toNat (pyRevSliceTail ims length))
    else .ok l
  else
    if ims.length ≠ length then .error .valueError
    else if ims.length ≠ 0 then .error .attributeError
    else .ok l

/-- Embeds `FileImageStack.__set_int` (io/_stack.py 345-349): negative indices are
shifted by the depth, out-of-range raises `IndexError`, an index equal to
the depth appends via `_insert`; otherwise `self._slices[idx].data = ims`
raises `AttributeError` (no `data` setter, see `setSliceRange`). -/
def setInt (l : List γ) (idx : ℤ) (im : γ) : Except PyErr (List γ) :=
  let idx := if idx < 0 then idx + l.length else idx
  if ¬(0 ≤ idx ∧ idx ≤ (l.length : ℤ)) then .error .indexError
  else if idx = (l.length : ℤ) then .ok (insertAt l idx.toNat [im])
  else .error .attributeError

/-- C6: evaluation of `__set_slice`/`__set_int` at the deciding inputs, on
the 5-slice stack `[0,1,2,3,4]`. The claim says overlapping positions are
replaced; instead every unit-step assignment with a non-empty overlap —
forward `stack[0:1] = [10]` or reverse `stack[4:1:-1] = [10]` — raises
`AttributeError` at the first `self._slices[...].data = ims[i]`, because
the `data` setter is bound to the name `set_data`, so no replace, shrink
or grow with overlap ever completes; an integer index below the depth
raises the same way. On the still-live empty-supply path the reverse
delete is additionally off by one: `stack[4:1:-1] = []` (span {4,3,2})
should per the claim delete exactly the span, giving `[0, 1]`, but the
code deletes `[(stop, start-0+1)] = [(1, 5)]`, giving `[0]`. The last two
conjuncts are the behaviors the claim does state correctly: `|step| = 2`
with a length mismatch raises `ValueError` (checked before any
assignment), and an integer index equal to the current length appends
through `_insert`. -/
theorem C6_set_slice_claim :
    setSliceRange ([0, 1, 2, 3, 4] : List ℤ) 0 1 1 [10] = .error .attributeError
    ∧ setSliceRange ([0, 1, 2, 3, 4] : List ℤ) 4 1 (-1) [10]
        = .error .attributeError
    ∧ setInt ([0, 1, 2] : List ℤ) 0 10 = .error .attributeError
    ∧ setSliceRange ([0, 1, 2, 3, 4] : List ℤ) 4 1 (-1) [] = .ok [0]
    ∧ setSliceRange ([0, 1, 2, 3, 4] : List ℤ) 0 4 2 [10] = .error .valueError
    ∧ setInt ([0, 1, 2] : List ℤ) 3 10 = .ok [0, 1, 2, 10] := by
  refine ⟨rfl, rfl, rfl, rfl, rfl, rfl⟩

end SetSlice

namespace OpenStack

/-- Embeds `MatchQuality` (io/_stack.py 31-36): NotAtAll=0, Unlikely=25, Maybe=50,
Likely=75, Definitely=100; compared as ints. -/
inductive MatchQuality where
  | notAtAll
  | unlikely
  | maybe
  | likely
  | definitely
  deriving DecidableEq, Repr

def MatchQuality.val : MatchQuality → ℕ
  | .notAtAll => 0
  | .unlikely => 25
  | .maybe => 50
  | .likely => 75
  | .definitely => 100

theorem MatchQuality.val_le_100 (mq : MatchQuality) : mq.val ≤ 100 := by
  cases mq <;> simp [MatchQuality.val]

theorem MatchQuality.val_100_definitely {mq : MatchQuality} (h : 100 ≤ mq.val) :
    mq = .definitely := by
  cases mq <;> simp_all [MatchQuality.val]

/-- A registered format adapter as `FileImageStack.open` sees it: the
`_can_read`/`_can_write` capability flags and the outcome of probing
`cls._openable(f, **options)` at the fixed locator and options — a
confidence level, or the exception the probe raises (e.g. on option keys it
does not understand). -/
structure Adapter where
  canRead : Bool
  canWrite : Bool
  probe : Except PyErr MatchQuality

/-- Capability filter of the loop (io/_stack.py 72):
`cls._can_read() and (readonly or cls._can_write())`. -/
def filtered (readonly : Bool) (a : Adapter) : Bool :=
  a.canRead && (readonly || a.canWrite)

def bval : Option (ℕ × MatchQuality) → ℕ
  | none => 0
  | some (_, mq) => mq.val

/-- The probing loop of `FileImageStack.open` (io/_stack.py 70-75) over the
registered subclasses, carrying the current adapter index and the best
`(class, match-quality)` so far (`highest_cls, highest_mq`; `none` stands
for the initial `None, MatchQuality.NotAtAll`): skips adapters failing the
capability filter, propagates any exception a probe raises, keeps the FIRST
adapter attaining each strictly higher score, and short-circuits on
`Definitely`. -/
def openLoop (readonly : Bool) : List Adapter → ℕ → Option (ℕ × MatchQuality) →
    Except PyErr (Option (ℕ × MatchQuality))
  | [], _, best => .ok best
  | a :: rest, i, best =>
    if ¬(a.canRead = true ∧ (readonly = true ∨ a.canWrite = true)) then
      openLoop readonly rest (i + 1) best
    else
      match a.probe with
      | .error e => .error e
      | .ok mq =>
        let best' := if mq.val > bval best then some (i, mq) else best
        if mq = .definitely then .ok best'
        else openLoop readonly rest (i + 1) best'

/-- Embeds `FileImageStack.open(filename, readonly, **options)` (io/_stack.py 62-77)
for a single-file (string) locator: runs the probing loop and either raises
`ValueError('Unknown file format')` — the spec's `UnknownFormat` — when no
adapter scored above NotAtAll, or delegates construction to the winning
adapter, returned here by index. -/
def openStack (readonly : Bool) (adapters : List Adapter) : Except PyErr ℕ :=
  match openLoop readonly adapters 0 none with
  | .error e => .error e
  | .ok none => .error .valueError
  | .ok (some (i, _)) => .ok i

/-- The score adapter `i` contributes: its probe's confidence when it passes
the capability filter and probes successfully, 0 otherwise (also 0 beyond
the list). -/
def scoreAt (readonly : Bool) (ads : List Adapter) (i : ℕ) : ℕ :=
  match ads[i]? with
  | some a =>
    if filtered readonly a then
      match a.probe with
      | .ok mq => mq.val
      | .error _ => 0
    else 0
  | none => 0

theorem scoreAt_le_100 (readonly : Bool) (ads : List Adapter) (i : ℕ) :
    scoreAt readonly ads i ≤ 100 := by
  unfold scoreAt
  rcases ads[i]? with _ | a
  · exact Nat.zero_le _
  · dsimp only
    split
    · rcases hp : a.probe with e | mq
      · simp
      · simp [hp, MatchQuality.val_le_100]
    · exact Nat.zero_le _

/-- Loop invariant: after the first `k` adapters have been examined, the
accumulator is `none` with all earlier scores zero, or holds the first
adapter attaining the maximum score so far (a positive one). -/
def Inv (readonly : Bool) (ads : List Adapter) (best : Option (ℕ × MatchQuality))
    (k : ℕ) : Prop :=
  (best = none ∧ ∀ j < k, scoreAt readonly ads j = 0)
  ∨ (∃ i mq, best = some (i, mq) ∧ scoreAt readonly ads i = mq.val ∧ 0 < mq.val
      ∧ i < k ∧ (∀ j < k, scoreAt readonly ads j ≤ mq.val)
      ∧ ∀ j < i, scoreAt readonly ads j < mq.val)

/-- Final characterization of the loop result. -/
def Final (readonly : Bool) (ads : List Adapter)
    (r : Option (ℕ × MatchQuality)) : Prop :=
  (r = none ∧ ∀ j, scoreAt readonly ads j = 0)
  ∨ (∃ i mq, r = some (i, mq) ∧ scoreAt readonly ads i = mq.val ∧ 0 < mq.val
      ∧ (∀ j, scoreAt readonly ads j ≤ mq.val)
      ∧ ∀ j < i, scoreAt readonly ads j < mq.val)

theorem openLoop_spec (readonly : Bool) (ads : List Adapter) :
    ∀ (l : List Adapter) (k : ℕ) (best : Option (ℕ × MatchQuality)),
      ads.drop k = l →
      (∀ a ∈ l, ∀ e, a.probe ≠ .error e) →
      Inv readonly ads best k →
      ∃ r, openLoop readonly l k best = .ok r ∧ Final readonly ads r := by
  intro l
  induction l with
  | nil =>
    intro k best hdrop _ hinv
    refine ⟨best, rfl, ?_⟩
    have hlen : ads.length ≤ k := by
      by_contra hlt
      rw [not_le] at hlt
      have := List.drop_eq_nil_iff.mp hdrop
      omega
    have hbound : ∀ j, k ≤ j → scoreAt readonly ads j = 0 := by
      intro j hj
      unfold scoreAt
      rw [List.getElem?_eq_none (le_trans hlen hj)]
    rcases hinv with ⟨hb, hz⟩ | ⟨i, mq, hb, hsc, hpos, hik, hle, hstrict⟩
    · left
      refine ⟨hb, fun j => ?_⟩
      by_cases hj : j < k
      · exact hz j hj
      · exact hbound j (le_of_not_lt hj)
    · right
      refine ⟨i, mq, hb, hsc, hpos, fun j => ?_, hstrict⟩
      by_cases hj : j < k
      · exact hle j hj
      · rw [hbound j (le_of_not_lt hj)]; exact Nat.zero_le _
  | cons a rest ih =>
    intro k best hdrop hok hinv
    have hget : ads[k]? = some a := by
      have := congrArg List.head? hdrop
      rwa [List.head?_drop, List.head?_cons] at this
    have hdrop2 : ads.drop (k + 1) = rest := by
      have := congrArg List.tail hdrop
      rwa [List.tail_drop] at this
    have hok2 : ∀ b ∈ rest, ∀ e, b.probe ≠ .error e :=
      fun b hb => hok b (List.mem_cons_of_mem a hb)
    rw [openLoop]
    by_cases hfil : a.canRead = true ∧ (readonly = true ∨ a.canWrite = true)
    · rw [if_neg (not_not_intro hfil)]
      rcases hp : a.probe with e | mq
      · exact absurd hp (hok a (List.mem_cons_self a rest) e)
      · have hfil2 : filtered readonly a = true := by
          unfold filtered
          rcases hfil with ⟨h1, h2⟩
          rcases h2 with h2 | h2 <;> simp [h1, h2]
        have hscore : scoreAt readonly ads k = mq.val := by
          unfold scoreAt
          rw [hget]
          simp [hfil2, hp]
        have hbest_le : ∀ j < k, scoreAt readonly ads j ≤ bval best := by
          rcases hinv with ⟨hb, hz⟩ | ⟨i, mq0, hb, hsc0, hpos0, hik0, hle0, hst0⟩
          · intro j hj; rw [hz j hj]; exact Nat.zero_le _
          · intro j hj; rw [hb]; exact hle0 j hj
        dsimp only
        by_cases hgt : mq.val > bval best
        · have hlt_all : ∀ j < k, scoreAt readonly ads j < mq.val :=
            fun j hj => lt_of_le_of_lt (hbest_le j hj) hgt
          have hinv2 : Inv readonly ads (some (k, mq)) (k + 1) := by
            right
            refine ⟨k, mq, rfl, hscore, by omega, by omega, ?_, hlt_all⟩
            intro j hj
            rcases Nat.lt_succ_iff_lt_or_eq.mp hj with hj | rfl
            · exact le_of_lt (hlt_all j hj)
            · exact le_of_eq hscore
          rw [if_pos hgt]
          by_cases hdef : mq = .definitely
          · rw [if_pos hdef]
            refine ⟨some (k, mq), rfl, Or.inr ⟨k, mq, rfl, hscore, by omega,
              fun j => ?_, hlt_all⟩⟩
            rw [hdef]
            simpa [MatchQuality.val] using scoreAt_le_100 readonly ads j
          · rw [if_neg hdef]
            exact ih (k + 1) (some (k, mq)) hdrop2 hok2 hinv2
        · have hble : mq.val ≤ bval best := le_of_not_lt hgt
          have hinv2 : Inv readonly ads best (k + 1) := by
            rcases hinv with ⟨hb, hz⟩ | ⟨i, mq0, hb, hsc0, hpos0, hik0, hle0, hst0⟩
            · left
              refine ⟨hb, fun j hj => ?_⟩
              rcases Nat.lt_succ_iff_lt_or_eq.mp hj with hj | rfl
              · exact hz j hj
              · rw [hb] at hble
                simp only [bval] at hble
                omega
            · right
              refine ⟨i, mq0, hb, hsc0, hpos0, by omega, fun j hj => ?_, hst0⟩
              rcases Nat.lt_succ_iff_lt_or_eq.mp hj with hj | rfl
              · exact hle0 j hj
              · rw [hb] at hble
                simp only [bval] at hble
                omega
          rw [if_neg hgt]
          by_cases hdef : mq = .definitely
          · rw [if_pos hdef]
            refine ⟨best, rfl, ?_⟩
            have h100 : 100 ≤ bval best := by
              rw [hdef, MatchQuality.val] at hble
              exact hble
            rcases hinv2 with ⟨hb, _⟩ | ⟨i, mq0, hb, hsc0, hpos0, _, _, hst0⟩
            · rw [hb] at h100
              simp only [bval] at h100
              omega
            · right
              refine ⟨i, mq0, hb, hsc0, hpos0, fun j => ?_, hst0⟩
              rw [hb] at h100
              simp only [bval] at h100
              calc scoreAt readonly ads j ≤ 100 := scoreAt_le_100 readonly ads j
                _ ≤ mq0.val := h100
          · rw [if_neg hdef]
            exact ih (k + 1) best hdrop2 hok2 hinv2
    · rw [if_pos hfil]
      have hfil2 : filtered readonly a = false := by
        unfold filtered
        by_contra hc
        rw [Bool.not_eq_false, Bool.and_eq_true, Bool.or_eq_true] at hc
        exact hfil ⟨hc.1, hc.2⟩
      have hscore : scoreAt readonly ads k = 0 := by
        unfold scoreAt
        rw [hget]
        simp [hfil2]
      have hinv2 : Inv readonly ads best (k + 1) := by
        rcases hinv with ⟨hb, hz⟩ | ⟨i, mq0, hb, hsc0, hpos0, hik0, hle0, hst0⟩
        · left
          refine ⟨hb, fun j hj => ?_⟩
          rcases Nat.lt_succ_iff_lt_or_eq.mp hj with hj | rfl
          · exact hz j hj
          · exact hscore
        · right
          refine ⟨i, mq0, hb, hsc0, hpos0, by omega, fun j hj => ?_, hst0⟩
          rcases Nat.lt_succ_iff_lt_or_eq.mp hj with hj | rfl
          · exact hle0 j hj
          · rw [hscore]; exact Nat.zero_le _
      exact ih (k + 1) best hdrop2 hok2 hinv2

/-- C8 counterexample: two registered read/write adapters; probing the first
raises `TypeError` (its options are invalid for it), the second scores
`Definitely`. The claim says `open` probes every adapter, constructs via the
highest-scoring one (here adapter 1), and fails with `UnknownFormat` only
when every adapter scores None or the options are invalid for EVERY adapter
— so at this input it must construct. The code instead propagates the first
probe's exception unprotected: the result is the `TypeError`, neither a
constructed stack nor `UnknownFormat`. -/
theorem C8_open_claim_counterexample :
    openStack false
        [⟨true, true, .error .typeError⟩, ⟨true, true, .ok .definitely⟩]
      = .error .typeError := by
  rfl

/-- C8 amended: for a single-file `FileImageStack.open` whose probes all
complete (none raises): it fails with `UnknownFormat` (a `ValueError`) iff
every adapter contributes score zero (scores pass through the
`_can_read() and (readonly or _can_write())` capability filter), no other
error is possible, and otherwise it constructs via the earliest adapter
attaining the maximal confidence — the first-`Definitely` short-circuit is
consistent with that winner. When a probe raises, the exception propagates
immediately instead (`C8_open_claim_counterexample`). -/
theorem C8_open_claim_amended (readonly : Bool) (ads : List Adapter)
    (hok : ∀ a ∈ ads, ∀ e, a.probe ≠ .error e) :
    (openStack readonly ads = .error .valueError
      ↔ ∀ j, scoreAt readonly ads j = 0)
    ∧ (∀ e, openStack readonly ads = .error e → e = .valueError)
    ∧ (∀ i, openStack readonly ads = .ok i →
        0 < scoreAt readonly ads i
        ∧ (∀ j, scoreAt readonly ads j ≤ scoreAt readonly ads i)
        ∧ (∀ j < i, scoreAt readonly ads j < scoreAt readonly ads i)) := by
  obtain ⟨r, hr, hfin⟩ := openLoop_spec readonly ads ads 0 none rfl hok
    (Or.inl ⟨rfl, fun j hj => absurd hj (Nat.not_lt_zero j)⟩)
  unfold openStack
  rw [hr]
  rcases hfin with ⟨rfl, hz⟩ | ⟨i, mq, rfl, hsc, hpos, hle, hstrict⟩
  · refine ⟨⟨fun _ => hz, fun _ => rfl⟩, ?_, ?_⟩
    · intro e he
      exact (Except.error.inj he).symm
    · intro i hi
      exact absurd hi (by simp)
  · refine ⟨⟨fun h => absurd h (by simp), fun hall => ?_⟩, ?_, ?_⟩
    · exfalso
      have := hall i
      rw [hsc] at this
      omega
    · intro e he
      exact absurd he (by simp)
    · intro i2 hi2
      have hii : i = i2 := Except.ok.inj hi2
      subst hii
      refine ⟨by rw [hsc]; exact hpos, fun j => by rw [hsc]; exact hle j,
        fun j hj => by rw [hsc]; exact hstrict j hj⟩

/-- Witness for `C8_open_claim_amended` at two read/write adapters scoring
Maybe then Likely: the winner is index 1 with a positive score strictly above
adapter 0's. -/
theorem C8_open_claim_amended_witness :
    0 < scoreAt false [⟨true, true, .ok .maybe⟩, ⟨true, true, .ok .likely⟩] 1
    ∧ scoreAt false [⟨true, true, .ok .maybe⟩, ⟨true, true, .ok .likely⟩] 0
      < scoreAt false [⟨true, true, .ok .maybe⟩, ⟨true, true, .ok .likely⟩] 1 := by
  have h := (C8_open_claim_amended false
    [⟨true, true, .ok .maybe⟩, ⟨true, true, .ok .likely⟩]
    (by intro a ha e; fin_cases ha <;> simp)).2.2 1 rfl
  exact ⟨h.1, h.2.2 0 (by omega)⟩

end OpenStack

namespace CN

open Label

/-- The three internal strategies of `ConsecutivelyNumberImageStack.__init__`
(label.py 410-425): per-slice (`_calc_values = None` AND `_calc_renumber =
None`), whole-stack renumber (per_slice=False, ordered, shape-homogeneous:
`_calc_values = None`), and whole-stack replace-table (per_slice=False
otherwise: `_calc_renumber = None`). -/
inductive CNMode where
  | perSlice
  | renumberWhole
  | valuesWhole
  deriving DecidableEq, Repr

/-- Memoization state of a `ConsecutivelyNumberImageStack`: the wrapped
stack's pixel data (flattened, single-channel) and the lazily computed
`_n_labels` and `_renumbered` attributes (`none` = attribute absent). -/
structure CNState where
  mode : CNMode
  input : List ℤ
  nLabels : Option ℕ
  renumbered : Option (List ℕ)

def initCN (mode : CNMode) (input : List ℤ) : CNState := ⟨mode, input, none, none⟩

/-- Embeds `_calc_renumber` (label.py 497-501): `ims, self._n_labels =
_renumber3(self._ims.stack)`, memoized into `self._renumbered` (and on each
slice). -/
def calcRenumber (st : CNState) : CNState :=
  { st with renumbered := some (renumberCore st.input).1,
            nLabels := some (renumberCore st.input).2 }

/-- The `n_labels` property (label.py 502-507): when `_n_labels` is not yet
memoized it calls `self._calc_renumber()` if `self._calc_values is None` —
in per-slice mode `_calc_renumber` is itself `None`, so calling it raises
`TypeError` — and `self._calc_values()` otherwise (which memoizes the count
of distinct non-zero values without touching `_renumbered`). -/
def readNLabels (st : CNState) : Except PyErr (ℕ × CNState) :=
  match st.nLabels with
  | some n => .ok (n, st)
  | none =>
    match st.mode with
    | .perSlice => .error .typeError
    | .renumberWhole => .ok ((renumberCore st.input).2, calcRenumber st)
    | .valuesWhole =>
        .ok ((st.input.toFinset.erase 0).card,
             { st with nLabels := some (st.input.toFinset.erase 0).card })

/-- A slice-data read. In the whole-stack renumber mode
(`ConsecutivelyRenumberImageSlice._get_data`, label.py 516-519) it triggers
`_calc_renumber` when the memo is absent; the per-slice mode computes its
slice independently of any stack-level memo; the replace-table mode
(`ConsecutivelyNumberImageSlice._get_data` → `_calc_im` → `_calc_values`)
memoizes the value table and `_n_labels` but never `_renumbered`. -/
def readSliceData (st : CNState) : CNState :=
  match st.mode with
  | .perSlice => st
  | .renumberWhole => if st.renumbered = none then calcRenumber st else st
  | .valuesWhole =>
      if st.nLabels = none then
        { st with nLabels := some (st.input.toFinset.erase 0).card }
      else st

/-- The `stack` property (label.py 508-511): when `_renumbered` is memoized
it is returned; otherwise the property calls `self._calc_renumbered()` — a
method that does not exist on the class (the method is spelled
`_calc_renumber`), so the attribute lookup raises `AttributeError` and
nothing is computed. -/
def readStack (st : CNState) : Except PyErr (List ℕ × CNState) :=
  match st.renumbered with
  | some r => .ok (r, st)
  | none => .error .attributeError

inductive CNOp where
  | nLabelsOp
  | sliceDataOp
  | stackOp
  deriving DecidableEq, Repr

/-- One public access; an access that raises leaves the state as it was. -/
def cnapply (st : CNState) : CNOp → CNState
  | .nLabelsOp => match readNLabels st with | .ok p => p.2 | .error _ => st
  | .sliceDataOp => readSliceData st
  | .stackOp => match readStack st with | .ok p => p.2 | .error _ => st

def cnrun (st : CNState) : List CNOp → CNState
  | [] => st
  | op :: ops => cnrun (cnapply st op) ops

theorem cnapply_mode (st : CNState) (op : CNOp) : (cnapply st op).mode = st.mode := by
  rcases st with ⟨m, inp, nl, ren⟩
  cases op <;> cases m <;> cases nl <;> cases ren <;> rfl

theorem cnapply_sets_renumbered {st : CNState} {op : CNOp}
    (h : st.renumbered = none) (hne : (cnapply st op).renumbered ≠ none) :
    st.mode = .renumberWhole ∧ (op = .nLabelsOp ∨ op = .sliceDataOp) := by
  rcases st with ⟨m, inp, nl, ren⟩
  cases ren
  · cases op <;> cases m <;> cases nl <;>
      simp_all [cnapply, readNLabels, readSliceData, readStack, calcRenumber]
  · simp at h

theorem cnrun_renumbered_aux (ops : List CNOp) : ∀ st : CNState,
    st.renumbered = none → (cnrun st ops).renumbered ≠ none →
    st.mode = .renumberWhole ∧ ∃ op ∈ ops, op = .nLabelsOp ∨ op = .sliceDataOp := by
  induction ops with
  | nil =>
    intro st h hne
    rw [cnrun] at hne
    exact absurd h hne
  | cons op rest ih =>
    intro st h hne
    rw [cnrun] at hne
    by_cases hset : (cnapply st op).renumbered = none
    · obtain ⟨hmode, op2, hop2, hkind⟩ := ih (cnapply st op) hset hne
      rw [cnapply_mode st op] at hmode
      exact ⟨hmode, op2, List.mem_cons_of_mem op hop2, hkind⟩
    · obtain ⟨hmode, hkind⟩ := cnapply_sets_renumbered h hset
      exact ⟨hmode, op, List.mem_cons_self op rest, hkind⟩

/-- C10 counterexample: in the ordered shape-homogeneous whole-stack mode,
reading `n_labels` first (no slice has been read) triggers `_calc_renumber`,
after which the `stack` property returns a value — contradicting the claim
that the property returns a value only after the memoizing computation has
been triggered through a SLICE read. -/
theorem C10_stack_claim_counterexample :
    (match readNLabels (initCN .renumberWhole [1, 0, 2]) with
      | .ok p => (readStack p.2).isOk
      | .error _ => false) = true := by
  rfl

/-- C10 amended: reading the `stack` property while `_renumbered` is not
memoized raises `AttributeError` (the property calls the nonexistent
`_calc_renumbered`) instead of computing the renumbered array; and along any
sequence of accesses from a fresh stack, `stack` can return a value only in
the ordered shape-homogeneous whole-stack mode, and only after a slice read
OR an `n_labels` read has triggered the memoizing `_calc_renumber`. -/
theorem C10_stack_claim_amended (mode : CNMode) (input : List ℤ) (ops : List CNOp) :
    (∀ st : CNState, st.renumbered = none → readStack st = .error .attributeError)
    ∧ ((cnrun (initCN mode input) ops).renumbered ≠ none →
        mode = .renumberWhole
        ∧ ∃ op ∈ ops, op = .nLabelsOp ∨ op = .sliceDataOp) := by
  constructor
  · intro st h
    unfold readStack
    rw [h]
  · intro hne
    exact cnrun_renumbered_aux ops (initCN mode input) rfl hne

/-- Witness for `C10_stack_claim_amended`: on a fresh whole-stack-renumber
stack over `[1, 0, 2]`, `stack` raises `AttributeError`, and after the
single-operation trace `[slice read]` the memo is present, with the trace
containing the required trigger. -/
theorem C10_stack_claim_amended_witness :
    readStack (initCN .renumberWhole [1, 0, 2]) = .error .attributeError
    ∧ (CNMode.renumberWhole = CNMode.renumberWhole
        ∧ ∃ op ∈ [CNOp.sliceDataOp], op = .nLabelsOp ∨ op = .sliceDataOp) := by
  have h := C10_stack_claim_amended .renumberWhole [1, 0, 2] [CNOp.sliceDataOp]
  refine ⟨h.1 (initCN .renumberWhole [1, 0, 2]) rfl, h.2 ?_⟩
  simp [cnrun, cnapply, readSliceData, initCN, calcRenumber]

end CN

namespace Homog

/-- Per-slice metadata: shape and element type (opaque codes, compared for
equality only). -/
structure SliceMeta where
  shape : ℕ × ℕ
  dtype : ℕ
  deriving DecidableEq, Repr

/-- The `Homogeneous` flag pair: the `Shape` bit and the `DType` bit. -/
structure HFlags where
  shapeBit : Bool
  dtypeBit : Bool
  deriving DecidableEq, Repr

def HFlags.both : HFlags := ⟨true, true⟩

/-- Flag-relevant state of a writable `FileImageStack`: the slice metadata
list and the cached `_homogeneous` flags (`none` = Python `None` = unknown).
The LRU cache is off (`cache_size = 0`), so `_cache_data` reduces to its
`_update_homogeneous_set` call. -/
structure HStack where
  slices : List SliceMeta
  homogeneous : Option HFlags
  deriving DecidableEq, Repr

/-- Embeds `ImageStack._get_homogeneous_info` (_stack.py 94-109): `d = 0` reports
Both without touching the cache; unknown (`None`) flags are recomputed from
the slice metadata and memoized; cached flags are reported as-is. Returns
the reported flags with the updated stack (the shape/dtype values returned
by the source alongside are not needed by the claim). -/
def getHomogeneousInfo (st : HStack) : HFlags × HStack :=
  match st.slices with
  | [] => (.both, st)
  | s0 :: rest =>
    match st.homogeneous with
    | some f => (f, st)
    | none =>
      let f : HFlags := ⟨rest.all (fun s => s.shape = s0.shape),
                         rest.all (fun s => s.dtype = s0.dtype)⟩
      (f, { st with homogeneous := some f })

/-- Embeds `ImageStack._update_homogeneous_set(z, shape, dtype)` (_stack.py
110-115): fetches the reference slice `self._slices[-1 if z == 0 else 0]`
(`IndexError` on an empty list), then evaluates `Homogeneous.Shape in
self._homogeneous` — which raises `TypeError` when the flags are Python
`None` — and clears each bit whose new metadata differs from the reference
slice's. The returned pair carries the resulting state (unchanged when an
exception was raised) and the exception if any. `refAt` is the reference
slice `self._slices[-1 if z == 0 else 0]` (`none` when the list is empty). -/
def refAt (l : List SliceMeta) (z : ℕ) : Option SliceMeta :=
  if z = 0 then l.getLast? else l.head?

def updateHomogeneousSet (st : HStack) (z : ℕ) (shape : ℕ × ℕ) (dtype : ℕ) :
    HStack × Option PyErr :=
  match refAt st.slices z with
  | none => (st, some .indexError)
  | some s =>
    match st.homogeneous with
    | none => (st, some .typeError)
    | some f =>
      let f2 : HFlags :=
        ⟨if f.shapeBit = true ∧ shape ≠ s.shape then false else f.shapeBit,
         if f.dtypeBit = true ∧ dtype ≠ s.dtype then false else f.dtypeBit⟩
      ({ st with homogeneous := some f2 }, none)

/-- Embeds `FileImageStack._delete_slices(start, stop)` (io/_stack.py 281-293),
depth/flags part: `del self._slices[start:stop]` (the contract guarantees
`start < stop`), then `Both` when `d <= 1`, else reset to unknown unless the
flags were already `Both` ("may have become homogeneous with the
deletion"). -/
def deleteSlices (st : HStack) (start stop : ℕ) : HStack :=
  let slices2 := st.slices.take start ++ st.slices.drop (max start stop)
  { slices := slices2,
    homogeneous :=
      if slices2.length ≤ 1 then some .both
      else if st.homogeneous ≠ some .both then none
      else st.homogeneous }

/-- Embeds `FileImageStack._insert_slices(idx, slices)` (io/_stack.py 295-305):
`self._slices[idx:idx] = slices`; the homogeneity flags are NOT touched by
this function. -/
def insertSlices (st : HStack) (idx : ℕ) (ms : List SliceMeta) : HStack :=
  { st with slices := st.slices.take idx ++ ms ++ st.slices.drop idx }

/-- The `_insert` contract (io/_stack.py 260-275): after `_insert_slices`,
`FileImageSlice._cache_data(im)` runs for each written slice in order,
invoking `_update_homogeneous_set` with the slice's index and metadata
(io/_stack.py 479-484); processing stops at the first exception. -/
def cacheDataAll (idx : ℕ) : HStack → List SliceMeta → ℕ → HStack × Option PyErr
  | st, [], _ => (st, none)
  | st, m :: rest, k =>
    match updateHomogeneousSet st (idx + k) m.shape m.dtype with
    | (st2, none) => cacheDataAll idx st2 rest (k + 1)
    | (st2, some e) => (st2, some e)

def insertOp (st : HStack) (idx : ℕ) (ms : List SliceMeta) : HStack × Option PyErr :=
  cacheDataAll idx (insertSlices st idx ms) ms 0

/-- A slice-set `stack[z] = im` (io/_stack.py 345-349 delegating to
`FileImageSlice.set_data`, 475-484): the format's `_set_data` writes the
data and updates the slice's metadata, then `_cache_data` invokes
`_update_homogeneous_set` with the new metadata; an out-of-range index
raises `IndexError` before any mutation. -/
def setSliceOp (st : HStack) (z : ℕ) (m : SliceMeta) : HStack × Option PyErr :=
  match st.slices[z]? with
  | none => (st, some .indexError)
  | some _ =>
      updateHomogeneousSet { st with slices := st.slices.set z m } z m.shape m.dtype

inductive HOp where
  | queryOp
  | setOp (z : ℕ) (m : SliceMeta)
  | insOp (idx : ℕ) (ms : List SliceMeta)
  | delOp (start stop : ℕ)

/-- One public operation on the stack; an operation that raises leaves the
state it had produced up to the exception. -/
def hstep (st : HStack) : HOp → HStack
  | .queryOp => (getHomogeneousInfo st).2
  | .setOp z m => (setSliceOp st z m).1
  | .insOp idx ms => (insertOp st idx ms).1
  | .delOp s e => deleteSlices st s e

theorem update_slices (st : HStack) (z : ℕ) (sh : ℕ × ℕ) (dt : ℕ) :
    (updateHomogeneousSet st z sh dt).1.slices = st.slices := by
  unfold updateHomogeneousSet
  rcases refAt st.slices z with _ | s
  · rfl
  · rcases st.homogeneous with _ | f <;> rfl

end Homog

namespace CC

/-- Modelled from the spec: `scipy.ndimage.measurements.label` connects
neighboring foreground cells. Images are embedded flattened; `adjS` is the
structural neighborhood (for a 2-D image of width `w` the 4-connectivity
cross, `gridAdj` below), `mask` the foreground predicate, and two cells are
graph-adjacent when they are structural neighbors and both foreground. -/
def adjb (adjS : ℕ → ℕ → Bool) (mask : ℕ → Bool) (p q : ℕ) : Bool :=
  adjS p q && mask p && mask q

/-- Modelled from the spec: one round of breadth-first expansion of a cell
set inside the `sz`-cell universe. -/
def expandF (adjS : ℕ → ℕ → Bool) (mask : ℕ → Bool) (sz : ℕ) (s : Finset ℕ) :
    Finset ℕ :=
  (Finset.range sz).filter
    (fun q => q ∈ s ∨ ∃ p ∈ s, adjb adjS mask p q = true)

/-- Modelled from the spec: the set of cells connected to `p`, obtained by
saturating the expansion (`sz` rounds always reach the fixed point). -/
def reachSet (adjS : ℕ → ℕ → Bool) (mask : ℕ → Bool) (sz : ℕ) (p : ℕ) :
    Finset ℕ :=
  (expandF adjS mask sz)^[sz] {p}

/-- Whether `q` lies in the connected component of `p`. -/
def reach (adjS : ℕ → ℕ → Bool) (mask : ℕ → Bool) (sz p q : ℕ) : Prop :=
  q ∈ reachSet adjS mask sz p

instance instDecReach (adjS : ℕ → ℕ → Bool) (mask : ℕ → Bool) (sz p q : ℕ) :
    Decidable (reach adjS mask sz p q) :=
  decidable_of_iff (q ∈ reachSet adjS mask sz p) Iff.rfl

theorem adjb_symm {adjS : ℕ → ℕ → Bool} {mask : ℕ → Bool}
    (hS : ∀ p q, adjS p q = adjS q p) {p q : ℕ}
    (h : adjb adjS mask p q = true) : adjb adjS mask q p = true := by
  simp only [adjb, Bool.and_eq_true] at h ⊢
  exact ⟨⟨(hS q p).trans h.1.1, h.2⟩, h.1.2⟩

theorem adjb_mask {adjS : ℕ → ℕ → Bool} {mask : ℕ → Bool} {p q : ℕ}
    (h : adjb adjS mask p q = true) : mask p = true ∧ mask q = true := by
  simp only [adjb, Bool.and_eq_true] at h
  exact ⟨h.1.2, h.2⟩

theorem mem_expandF {adjS : ℕ → ℕ → Bool} {mask : ℕ → Bool} {sz : ℕ}
    {s : Finset ℕ} {q : ℕ} :
    q ∈ expandF adjS mask sz s
    ↔ q < sz ∧ (q ∈ s ∨ ∃ p ∈ s, adjb adjS mask p q = true) := by
  simp [expandF]

theorem expandF_subset_range (adjS : ℕ → ℕ → Bool) (mask : ℕ → Bool) (sz : ℕ)
    (s : Finset ℕ) : expandF adjS mask sz s ⊆ Finset.range sz :=
  Finset.filter_subset _ _

theorem expandF_mono (adjS : ℕ → ℕ → Bool) (mask : ℕ → Bool) (sz : ℕ)
    {s t : Finset ℕ} (h : s ⊆ t) :
    expandF adjS mask sz s ⊆ expandF adjS mask sz t := by
  intro q hq
  rw [mem_expandF] at hq ⊢
  refine ⟨hq.1, ?_⟩
  rcases hq.2 with hq2 | ⟨p, hp, hpq⟩
  · exact Or.inl (h hq2)
  · exact Or.inr ⟨p, h hp, hpq⟩

theorem subset_expandF (adjS : ℕ → ℕ → Bool) (mask : ℕ → Bool) (sz : ℕ)
    {s : Finset ℕ} (h : s ⊆ Finset.range sz) : s ⊆ expandF adjS mask sz s := by
  intro q hq
  rw [mem_expandF]
  exact ⟨Finset.mem_range.mp (h hq), Or.inl hq⟩

theorem iter_subset_range (adjS : ℕ → ℕ → Bool) (mask : ℕ → Bool) {sz p : ℕ}
    (hp : p < sz) (k : ℕ) :
    (expandF adjS mask sz)^[k] {p} ⊆ Finset.range sz := by
  cases k with
  | zero =>
    intro q hq
    rw [Function.iterate_zero_apply, Finset.mem_singleton] at hq
    subst hq
    exact Finset.mem_range.mpr hp
  | succ n =>
    rw [Function.iterate_succ_apply']
    exact expandF_subset_range adjS mask sz _

theorem iter_mono_succ (adjS : ℕ → ℕ → Bool) (mask : ℕ → Bool) {sz p : ℕ}
    (hp : p < sz) (k : ℕ) :
    (expandF adjS mask sz)^[k] {p} ⊆ (expandF adjS mask sz)^[k + 1] {p} := by
  induction k with
  | zero =>
    rw [Function.iterate_zero_apply, Function.iterate_one]
    exact subset_expandF adjS mask sz (by simp [hp])
  | succ n ih =>
    rw [Function.iterate_succ_apply', Function.iterate_succ_apply']
    exact expandF_mono adjS mask sz ih

theorem iter_mono (adjS : ℕ → ℕ → Bool) (mask : ℕ → Bool) {sz p : ℕ}
    (hp : p < sz) {k m : ℕ} (h : k ≤ m) :
    (expandF adjS mask sz)^[k] {p} ⊆ (expandF adjS mask sz)^[m] {p} := by
  induction h with
  | refl => exact fun q hq => hq
  | step _ ih => exact fun q hq => iter_mono_succ adjS mask hp _ (ih hq)

theorem self_mem_reach (adjS : ℕ → ℕ → Bool) (mask : ℕ → Bool) {sz p : ℕ}
    (hp : p < sz) : reach adjS mask sz p p :=
  iter_mono adjS mask hp (Nat.zero_le sz)
    (by rw [Function.iterate_zero_apply]; exact Finset.mem_singleton_self p)

theorem iterate_stable {β : Type*} (f : β → β) (x : β) (k : ℕ)
    (h : f^[k + 1] x = f^[k] x) : ∀ j, f^[k + j] x = f^[k] x := by
  intro j
  induction j with
  | zero => rfl
  | succ n ih =>
    rw [show k + (n + 1) = (k + n) + 1 from rfl, Function.iterate_succ_apply', ih]
    exact (Function.iterate_succ_apply' f k x).symm.trans h

theorem iter_card_ge (adjS : ℕ → ℕ → Bool) (mask : ℕ → Bool) {sz p : ℕ}
    (hp : p < sz) :
    ∀ k, (∀ j, j < k → (expandF adjS mask sz)^[j + 1] {p}
        ≠ (expandF adjS mask sz)^[j] {p}) →
      k + 1 ≤ ((expandF adjS mask sz)^[k] {p}).card := by
  intro k
  induction k with
  | zero => intro _; simp
  | succ n ih =>
    intro h
    have h1 := ih (fun j hj => h j (hj.trans (Nat.lt_succ_self n)))
    have h2 : (expandF adjS mask sz)^[n] {p}
        ⊂ (expandF adjS mask sz)^[n + 1] {p} :=
      HasSubset.Subset.ssubset_of_ne (iter_mono_succ adjS mask hp n)
        (Ne.symm (h n (Nat.lt_succ_self n)))
    have h3 := Finset.card_lt_card h2
    omega

theorem reachSet_fixed (adjS : ℕ → ℕ → Bool) (mask : ℕ → Bool) {sz p : ℕ}
    (hp : p < sz) :
    expandF adjS mask sz (reachSet adjS mask sz p) = reachSet adjS mask sz p := by
  rw [reachSet, show expandF adjS mask sz ((expandF adjS mask sz)^[sz] {p})
      = (expandF adjS mask sz)^[sz + 1] {p} from
    (Function.iterate_succ_apply' _ _ _).symm]
  by_contra hne
  have hall : ∀ j, j ≤ sz → (expandF adjS mask sz)^[j + 1] {p}
      ≠ (expandF adjS mask sz)^[j] {p} := by
    intro j hj hstab
    have h1 := iterate_stable (expandF adjS mask sz) {p} j hstab (sz - j)
    have h2 := iterate_stable (expandF adjS mask sz) {p} j hstab (sz + 1 - j)
    rw [show j + (sz - j) = sz from by omega] at h1
    rw [show j + (sz + 1 - j) = sz + 1 from by omega] at h2
    exact hne (h2.trans h1.symm)
  have hcard := iter_card_ge adjS mask hp (sz + 1)
    (fun j hj => hall j (Nat.lt_succ_iff.mp hj))
  have hle : ((expandF adjS mask sz)^[sz + 1] {p}).card ≤ sz := by
    calc ((expandF adjS mask sz)^[sz + 1] {p}).card
        ≤ (Finset.range sz).card :=
          Finset.card_le_card (iter_subset_range adjS mask hp (sz + 1))
      _ = sz := Finset.card_range sz
  omega

theorem reach_lt (adjS : ℕ → ℕ → Bool) (mask : ℕ → Bool) {sz p q : ℕ}
    (hp : p < sz) (h : reach adjS mask sz p q) : q < sz := by
  have := iter_subset_range adjS mask hp sz h
  exact Finset.mem_range.mp this

theorem reach_closed (adjS : ℕ → ℕ → Bool) (mask : ℕ → Bool) {sz p q r : ℕ}
    (hp : p < sz) (hq : reach adjS mask sz p q)
    (hqr : adjb adjS mask q r = true) (hr : r < sz) : reach adjS mask sz p r := by
  rw [reach, ← reachSet_fixed adjS mask hp, mem_expandF]
  exact ⟨hr, Or.inr ⟨q, hq, hqr⟩⟩

theorem reach_trans (adjS : ℕ → ℕ → Bool) (mask : ℕ → Bool) {sz p q r : ℕ}
    (hp : p < sz) (hpq : reach adjS mask sz p q) (hqr : reach adjS mask sz q r) :
    reach adjS mask sz p r := by
  have key : ∀ k, (expandF adjS mask sz)^[k] {q} ⊆ reachSet adjS mask sz p := by
    intro k
    induction k with
    | zero =>
      rw [Function.iterate_zero_apply]
      intro x hx
      rw [Finset.mem_singleton] at hx
      subst hx
      exact hpq
    | succ n ih =>
      rw [Function.iterate_succ_apply']
      calc expandF adjS mask sz ((expandF adjS mask sz)^[n] {q})
          ⊆ expandF adjS mask sz (reachSet adjS mask sz p) :=
            expandF_mono adjS mask sz ih
        _ = reachSet adjS mask sz p := reachSet_fixed adjS mask hp
  exact key sz hqr

theorem reach_mask (adjS : ℕ → ℕ → Bool) (mask : ℕ → Bool) {sz p q : ℕ}
    (hmp : mask p = true) (h : reach adjS mask sz p q) : mask q = true := by
  have key : ∀ k, ∀ x ∈ (expandF adjS mask sz)^[k] {p}, mask x = true := by
    intro k
    induction k with
    | zero =>
      intro x hx
      rw [Function.iterate_zero_apply, Finset.mem_singleton] at hx
      subst hx
      exact hmp
    | succ n ih =>
      intro x hx
      rw [Function.iterate_succ_apply', mem_expandF] at hx
      rcases hx.2 with hx2 | ⟨p', _, hadj⟩
      · exact ih x hx2
      · exact (adjb_mask hadj).2
  exact key sz q h

theorem reach_symm {adjS : ℕ → ℕ → Bool} {mask : ℕ → Bool}
    (hS : ∀ p q, adjS p q = adjS q p) {sz p q : ℕ}
    (hp : p < sz) (h : reach adjS mask sz p q) : reach adjS mask sz q p := by
  have key : ∀ k, ∀ x ∈ (expandF adjS mask sz)^[k] {p}, reach adjS mask sz x p := by
    intro k
    induction k with
    | zero =>
      intro x hx
      rw [Function.iterate_zero_apply, Finset.mem_singleton] at hx
      subst hx
      exact self_mem_reach adjS mask hp
    | succ n ih =>
      intro x hx
      rw [Function.iterate_succ_apply', mem_expandF] at hx
      obtain ⟨hxlt, hx2⟩ := hx
      rcases hx2 with hx2 | ⟨p', hp', hadj⟩
      · exact ih x hx2
      · have hxp' : adjb adjS mask x p' = true := adjb_symm hS hadj
        have hp'lt : p' < sz := by
          cases n with
          | zero =>
            rw [Function.iterate_zero_apply, Finset.mem_singleton] at hp'
            subst hp'
            exact hp
          | succ n2 =>
            have := iter_subset_range adjS mask hp (n2 + 1) hp'
            exact Finset.mem_range.mp this
        have hxp'r : reach adjS mask sz x p' :=
          reach_closed adjS mask hxlt (self_mem_reach adjS mask hxlt) hxp' hp'lt
        exact reach_trans adjS mask hxlt hxp'r (ih p' hp')
  exact key sz q h

/-- Modelled from the spec: a component representative is its raster-first
(smallest-index) cell; scipy numbers components 1, 2, … in order of their
first raster occurrence. -/
def IsRep (adjS : ℕ → ℕ → Bool) (mask : ℕ → Bool) (sz r : ℕ) : Prop :=
  mask r = true ∧ ∀ q, q < r → ¬ reach adjS mask sz r q

instance instDecIsRep (adjS : ℕ → ℕ → Bool) (mask : ℕ → Bool) (sz r : ℕ) :
    Decidable (IsRep adjS mask sz r) :=
  decidable_of_iff
    (mask r = true ∧ ∀ q, q < r → ¬ reach adjS mask sz r q) Iff.rfl

/-- Representatives in increasing raster order. -/
def repsList (adjS : ℕ → ℕ → Bool) (mask : ℕ → Bool) (sz : ℕ) : List ℕ :=
  (List.range sz).filter (fun r => decide (IsRep adjS mask sz r))

/-- The representative of the component of `p`: the smallest reachable cell. -/
def repOf (adjS : ℕ → ℕ → Bool) (mask : ℕ → Bool) (sz p : ℕ) : ℕ :=
  if h : (reachSet adjS mask sz p).Nonempty then (reachSet adjS mask sz p).min' h
  else p

/-- The label of cell `p`: 0 for background, otherwise the 1-based rank of its
component representative. -/
def labelAt (adjS : ℕ → ℕ → Bool) (mask : ℕ → Bool) (sz p : ℕ) : ℕ :=
  if mask p then
    (repsList adjS mask sz).indexOf (repOf adjS mask sz p) + 1
  else 0

/-- Modelled from the spec: `scipy.ndimage.measurements.label` on the given
foreground mask — the flattened labeled array and the number of components. -/
def ccLabel (adjS : ℕ → ℕ → Bool) (mask : ℕ → Bool) (sz : ℕ) : List ℕ × ℕ :=
  ((List.range sz).map (labelAt adjS mask sz), (repsList adjS mask sz).length)

theorem mem_repsList {adjS : ℕ → ℕ → Bool} {mask : ℕ → Bool} {sz : ℕ}
    (hm : ∀ x, mask x = true → x < sz) (r : ℕ) :
    r ∈ repsList adjS mask sz ↔ IsRep adjS mask sz r := by
  simp only [repsList, List.mem_filter, List.mem_range, decide_eq_true_eq]
  constructor
  · exact fun h => h.2
  · exact fun h => ⟨hm r h.1, h⟩

theorem repsList_nodup (adjS : ℕ → ℕ → Bool) (mask : ℕ → Bool) (sz : ℕ) :
    (repsList adjS mask sz).Nodup :=
  (List.nodup_range sz).filter _

theorem repsList_sublist_range (adjS : ℕ → ℕ → Bool) (mask : ℕ → Bool) (sz : ℕ) :
    ∀ r ∈ repsList adjS mask sz, r < sz := by
  intro r hr
  have := List.mem_of_mem_filter hr
  exact List.mem_range.mp this

theorem repOf_spec (adjS : ℕ → ℕ → Bool) (mask : ℕ → Bool) {sz p : ℕ}
    (hp : p < sz) :
    reach adjS mask sz p (repOf adjS mask sz p)
    ∧ ∀ q, reach adjS mask sz p q → repOf adjS mask sz p ≤ q := by
  have hne : (reachSet adjS mask sz p).Nonempty :=
    ⟨p, self_mem_reach adjS mask hp⟩
  rw [repOf, dif_pos hne]
  exact ⟨(reachSet adjS mask sz p).min'_mem hne,
    fun q hq => (reachSet adjS mask sz p).min'_le q hq⟩

theorem isRep_repOf {adjS : ℕ → ℕ → Bool} {mask : ℕ → Bool} {sz : ℕ}
    (hm : ∀ x, mask x = true → x < sz) {p : ℕ} (hmp : mask p = true) :
    IsRep adjS mask sz (repOf adjS mask sz p) := by
  have hp : p < sz := hm p hmp
  obtain ⟨hmem, hmin⟩ := repOf_spec adjS mask hp
  refine ⟨reach_mask adjS mask hmp hmem, ?_⟩
  intro q hq hreach
  have hpq : reach adjS mask sz p q :=
    reach_trans adjS mask hp hmem hreach
  exact absurd (hmin q hpq) (by omega)

theorem repOf_of_isRep (adjS : ℕ → ℕ → Bool) (mask : ℕ → Bool) {sz r : ℕ}
    (hm : ∀ x, mask x = true → x < sz) (hr : IsRep adjS mask sz r) :
    repOf adjS mask sz r = r := by
  have hrlt : r < sz := hm r hr.1
  obtain ⟨hmem, hmin⟩ := repOf_spec adjS mask hrlt
  have h1 : repOf adjS mask sz r ≤ r := hmin r (self_mem_reach adjS mask hrlt)
  have h2 : ¬ repOf adjS mask sz r < r := fun hlt => hr.2 _ hlt hmem
  omega

theorem repOf_eq_iff_reach {adjS : ℕ → ℕ → Bool} {mask : ℕ → Bool} {sz : ℕ}
    (hS : ∀ p q, adjS p q = adjS q p)
    (hm : ∀ x, mask x = true → x < sz) {p q : ℕ}
    (hmp : mask p = true) (hmq : mask q = true) :
    repOf adjS mask sz p = repOf adjS mask sz q ↔ reach adjS mask sz p q := by
  have hp : p < sz := hm p hmp
  have hq : q < sz := hm q hmq
  obtain ⟨hpmem, hpmin⟩ := repOf_spec adjS mask hp
  obtain ⟨hqmem, hqmin⟩ := repOf_spec adjS mask hq
  constructor
  · intro heq
    have hrq : reach adjS mask sz (repOf adjS mask sz q) q :=
      reach_symm hS hq hqmem
    have h1 : reach adjS mask sz p (repOf adjS mask sz q) := heq ▸ hpmem
    exact reach_trans adjS mask hp h1 hrq
  · intro hpq
    have hqp : reach adjS mask sz q p := reach_symm hS hp hpq
    have h1 : reach adjS mask sz p (repOf adjS mask sz q) :=
      reach_trans adjS mask hp hpq hqmem
    have h2 : reach adjS mask sz q (repOf adjS mask sz p) :=
      reach_trans adjS mask hq hqp hpmem
    exact Nat.le_antisymm (hpmin _ h1) (hqmin _ h2)

theorem repOf_mem_repsList (adjS : ℕ → ℕ → Bool) {mask : ℕ → Bool} {sz : ℕ}
    (hm : ∀ x, mask x = true → x < sz) {p : ℕ} (hmp : mask p = true) :
    repOf adjS mask sz p ∈ repsList adjS mask sz :=
  (mem_repsList hm _).mpr (isRep_repOf hm hmp)

theorem labelAt_pos_le {adjS : ℕ → ℕ → Bool} {mask : ℕ → Bool} {sz : ℕ}
    (hm : ∀ x, mask x = true → x < sz) {p : ℕ} (hmp : mask p = true) :
    1 ≤ labelAt adjS mask sz p
    ∧ labelAt adjS mask sz p ≤ (repsList adjS mask sz).length := by
  have hmem := repOf_mem_repsList adjS hm hmp
  have hlt : (repsList adjS mask sz).indexOf (repOf adjS mask sz p)
      < (repsList adjS mask sz).length := List.indexOf_lt_length.mpr hmem
  rw [labelAt, if_pos hmp]
  omega

theorem labelAt_eq_zero_iff (adjS : ℕ → ℕ → Bool) (mask : ℕ → Bool) (sz p : ℕ) :
    labelAt adjS mask sz p = 0 ↔ mask p = false := by
  rw [labelAt]
  by_cases hmp : mask p = true
  · rw [if_pos hmp]
    simp [hmp]
  · rw [if_neg hmp]
    simp [Bool.not_eq_true] at hmp
    simp [hmp]

theorem labelAt_rep {adjS : ℕ → ℕ → Bool} {mask : ℕ → Bool} {sz : ℕ}
    (hm : ∀ x, mask x = true → x < sz) {k : ℕ}
    (hk : k < (repsList adjS mask sz).length) :
    labelAt adjS mask sz ((repsList adjS mask sz).get ⟨k, hk⟩) = k + 1 := by
  set r := (repsList adjS mask sz).get ⟨k, hk⟩ with hr
  have hrmem : r ∈ repsList adjS mask sz := List.get_mem _ k hk
  have hrep : IsRep adjS mask sz r := (mem_repsList hm r).mp hrmem
  rw [labelAt, if_pos hrep.1, repOf_of_isRep adjS mask hm hrep]
  have := List.indexOf_getElem (repsList_nodup adjS mask sz) k hk
  rw [hr, List.get_eq_getElem, this]

theorem labelAt_eq_iff {adjS : ℕ → ℕ → Bool} {mask : ℕ → Bool} {sz : ℕ}
    (hS : ∀ p q, adjS p q = adjS q p)
    (hm : ∀ x, mask x = true → x < sz) {p q : ℕ}
    (hmp : mask p = true) (hmq : mask q = true) :
    labelAt adjS mask sz p = labelAt adjS mask sz q ↔ reach adjS mask sz p q := by
  rw [labelAt, labelAt, if_pos hmp, if_pos hmq]
  rw [← repOf_eq_iff_reach hS hm hmp hmq]
  constructor
  · intro h
    exact (List.indexOf_inj (repOf_mem_repsList adjS hm hmp)
      (repOf_mem_repsList adjS hm hmq)).mp (by omega)
  · intro h
    rw [h]

theorem ccLabel_fst_length (adjS : ℕ → ℕ → Bool) (mask : ℕ → Bool) (sz : ℕ) :
    (ccLabel adjS mask sz).1.length = sz := by
  simp [ccLabel]

theorem ccLabel_getD_lt (adjS : ℕ → ℕ → Bool) (mask : ℕ → Bool) {sz p : ℕ}
    (hp : p < sz) : (ccLabel adjS mask sz).1.getD p 0 = labelAt adjS mask sz p := by
  rw [ccLabel, List.getD_eq_getElem?_getD, List.getElem?_map,
    List.getElem?_range hp]
  rfl

theorem ccLabel_getD_ge (adjS : ℕ → ℕ → Bool) (mask : ℕ → Bool) {sz p : ℕ}
    (hp : sz ≤ p) : (ccLabel adjS mask sz).1.getD p 0 = 0 := by
  rw [ccLabel, List.getD_eq_getElem?_getD, List.getElem?_eq_none (by simpa)]
  rfl

theorem ccLabel_values {adjS : ℕ → ℕ → Bool} {mask : ℕ → Bool} {sz : ℕ}
    (hm : ∀ x, mask x = true → x < sz) :
    ∀ v ∈ (ccLabel adjS mask sz).1, v ≤ (ccLabel adjS mask sz).2 := by
  intro v hv
  rw [ccLabel, List.mem_map] at hv
  obtain ⟨p, _, rfl⟩ := hv
  by_cases hmp : mask p = true
  · exact (labelAt_pos_le hm hmp).2
  · rw [labelAt, if_neg hmp]
    exact Nat.zero_le _

theorem ccLabel_attain {adjS : ℕ → ℕ → Bool} {mask : ℕ → Bool} {sz : ℕ}
    (hm : ∀ x, mask x = true → x < sz) :
    ∀ k, 1 ≤ k → k ≤ (ccLabel adjS mask sz).2 → k ∈ (ccLabel adjS mask sz).1 := by
  intro k h1 h2
  have hk : k - 1 < (repsList adjS mask sz).length := by
    simp only [ccLabel] at h2
    omega
  have hval := labelAt_rep hm hk
  have hlt : (repsList adjS mask sz).get ⟨k - 1, hk⟩ < sz :=
    repsList_sublist_range adjS mask sz _ (List.get_mem _ _ hk)
  rw [ccLabel, List.mem_map]
  refine ⟨(repsList adjS mask sz).get ⟨k - 1, hk⟩, List.mem_range.mpr hlt, ?_⟩
  rw [hval]
  omega

theorem searchsorted_zero {vals : List ℕ} (h : vals.Sorted (· < ·)) :
    Label.searchsorted vals 0 = 0 := by
  rw [Label.searchsorted_eq_countP h 0, List.countP_eq_zero]
  intro u _
  simp

theorem uniqueFast_eq_range {l : List ℕ} {N : ℕ}
    (h1 : ∀ v ∈ l, v ≤ N) (h2 : ∀ k, 1 ≤ k → k ≤ N → k ∈ l) (h0 : 0 ∈ l) :
    Label.uniqueFast l = List.range (N + 1) := by
  have hperm : List.Perm (Label.uniqueFast l) (List.range (N + 1)) := by
    rw [List.perm_ext_iff_of_nodup (Label.uniqueFast_nodup l) (List.nodup_range _)]
    intro y
    rw [Label.mem_uniqueFast, List.mem_range]
    constructor
    · intro hy
      exact Nat.lt_succ_of_le (h1 y hy)
    · intro hy
      rcases Nat.eq_zero_or_pos y with rfl | hpos
      · exact h0
      · exact h2 y hpos (Nat.lt_succ_iff.mp hy)
  exact List.eq_of_perm_of_sorted hperm
    (List.Sorted.le_of_lt (Label.uniqueFast_sorted l))
    (List.Sorted.le_of_lt (List.pairwise_lt_range _))

theorem uniqueFast_eq_range' {l : List ℕ} {N : ℕ}
    (h1 : ∀ v ∈ l, v ≤ N) (h2 : ∀ k, 1 ≤ k → k ≤ N → k ∈ l) (h0 : 0 ∉ l) :
    Label.uniqueFast l = List.range' 1 N := by
  have hperm : List.Perm (Label.uniqueFast l) (List.range' 1 N) := by
    rw [List.perm_ext_iff_of_nodup (Label.uniqueFast_nodup l)
      (List.nodup_range' 1 N)]
    intro y
    rw [Label.mem_uniqueFast, List.mem_range'_1]
    constructor
    · intro hy
      have hy0 : y ≠ 0 := fun h => h0 (h ▸ hy)
      have := h1 y hy
      omega
    · intro hy
      exact h2 y hy.1 (by omega)
  exact List.eq_of_perm_of_sorted hperm
    (List.Sorted.le_of_lt (Label.uniqueFast_sorted l))
    (List.Sorted.le_of_lt (List.pairwise_lt_range' 1 N))

theorem numberCore_of_complete {l : List ℕ} {N : ℕ}
    (h1 : ∀ v ∈ l, v ≤ N) (h2 : ∀ k, 1 ≤ k → k ≤ N → k ∈ l) :
    Label.numberCore l = (l, N) := by
  by_cases h0 : 0 ∈ l
  · have hu := uniqueFast_eq_range h1 h2 h0
    have hpos0 : Label.searchsorted (List.range (N + 1)) 0 = 0 :=
      searchsorted_zero (List.pairwise_lt_range _)
    have hout : l.map (Label.searchsorted (List.range (N + 1))) = l := by
      have key : ∀ v ∈ l, Label.searchsorted (List.range (N + 1)) v = v := by
        intro v hv
        have hvN : v < (List.range (N + 1)).length := by
          rw [List.length_range]
          exact Nat.lt_succ_of_le (h1 v hv)
        have hget : (List.range (N + 1)).get ⟨v, hvN⟩ = v := by
          show (List.range (N + 1))[v] = v
          exact List.getElem_range v hvN
        have hss := Label.searchsorted_get (List.pairwise_lt_range _) ⟨v, hvN⟩
        rw [hget] at hss
        exact hss
      rw [List.map_congr_left key]
      exact List.map_id' l
    have hc : ¬(0 = N + 1 ∨ (List.range (N + 1)).get? 0 ≠ some 0) := by
      push_neg
      refine ⟨by omega, ?_⟩
      rw [List.range_succ_eq_map]
      rfl
    simp only [Label.numberCore, hu, hpos0, hout, List.length_range]
    rw [if_neg hc, if_neg (fun h => h rfl)]
    simp
  · by_cases hN : N = 0
    · have hl : l = [] := by
        cases l with
        | nil => rfl
        | cons a t =>
          have ha := h1 a (List.mem_cons_self a t)
          have : a = 0 := by omega
          exact absurd (this ▸ List.mem_cons_self a t) h0
      subst hl
      subst hN
      simp [Label.numberCore, Label.uniqueFast, Label.searchsorted]
    · obtain ⟨M, rfl⟩ : ∃ M, N = M + 1 := ⟨N - 1, by omega⟩
      have hu := uniqueFast_eq_range' h1 h2 h0
      have hpos0 : Label.searchsorted (List.range' 1 (M + 1)) 0 = 0 :=
        searchsorted_zero (List.pairwise_lt_range' 1 (M + 1))
      have hout : (l.map (Label.searchsorted (List.range' 1 (M + 1)))).map (· + 1)
          = l := by
        rw [List.map_map]
        have key : ∀ v ∈ l,
            Label.searchsorted (List.range' 1 (M + 1)) v + 1 = v := by
          intro v hv
          have hv0 : v ≠ 0 := fun h => h0 (h ▸ hv)
          have hvN := h1 v hv
          have hvlt : v - 1 < (List.range' 1 (M + 1)).length := by
            simp only [List.length_range']
            omega
          have hget : (List.range' 1 (M + 1)).get ⟨v - 1, hvlt⟩ = v := by
            show (List.range' 1 (M + 1))[v - 1] = v
            rw [List.getElem_range']
            omega
          have hss := Label.searchsorted_get
            (List.pairwise_lt_range' 1 (M + 1)) ⟨v - 1, hvlt⟩
          rw [hget] at hss
          rw [hss]
          show v - 1 + 1 = v
          omega
        exact (List.map_congr_left (fun v hv => key v hv)).trans (List.map_id' l)
      have hc : (0 = (List.range' 1 (M + 1)).length
          ∨ (List.range' 1 (M + 1)).get? 0 ≠ some 0) := by
        refine Or.inr ?_
        rw [List.range'_succ]
        simp
      simp only [Label.numberCore, hu, hpos0]
      rw [if_pos hc]
      rw [hout]
      simp [List.length_range']

theorem reach_mono {adjS : ℕ → ℕ → Bool} {mask1 mask2 : ℕ → Bool} {sz : ℕ}
    (h : ∀ x, mask1 x = true → mask2 x = true) {p q : ℕ}
    (hr : reach adjS mask1 sz p q) : reach adjS mask2 sz p q := by
  have hadj : ∀ x y, adjb adjS mask1 x y = true → adjb adjS mask2 x y = true := by
    intro x y hxy
    simp only [adjb, Bool.and_eq_true] at hxy ⊢
    exact ⟨⟨hxy.1.1, h x hxy.1.2⟩, h y hxy.2⟩
  have key : ∀ k, (expandF adjS mask1 sz)^[k] {p} ⊆ (expandF adjS mask2 sz)^[k] {p} := by
    intro k
    induction k with
    | zero => exact fun x hx => hx
    | succ n ih =>
      rw [Function.iterate_succ_apply', Function.iterate_succ_apply']
      intro x hx
      rw [mem_expandF] at hx ⊢
      refine ⟨hx.1, ?_⟩
      rcases hx.2 with hx2 | ⟨p', hp', hadj'⟩
      · exact Or.inl (ih hx2)
      · exact Or.inr ⟨p', ih hp', hadj p' x hadj'⟩
  exact key sz hr

theorem reach_in_class {adjS : ℕ → ℕ → Bool} {mask : ℕ → Bool} {sz : ℕ}
    (hS : ∀ p q, adjS p q = adjS q p)
    (hm : ∀ x, mask x = true → x < sz) {i : ℕ}
    {mask2 : ℕ → Bool}
    (hmask2 : ∀ x, mask2 x = true
      ↔ x < sz ∧ mask x = true ∧ labelAt adjS mask sz x = i)
    {p q : ℕ} (hp2 : mask2 p = true) (hr : reach adjS mask sz p q) :
    reach adjS mask2 sz p q := by
  obtain ⟨hplt, hmp, hlabp⟩ := (hmask2 p).mp hp2
  have key : ∀ k, k ≤ sz → ∀ x ∈ (expandF adjS mask sz)^[k] {p},
      reach adjS mask2 sz p x := by
    intro k
    induction k with
    | zero =>
      intro _ x hx
      rw [Function.iterate_zero_apply, Finset.mem_singleton] at hx
      subst hx
      exact self_mem_reach adjS mask2 hplt
    | succ n ih =>
      intro hn x hx
      rw [Function.iterate_succ_apply', mem_expandF] at hx
      obtain ⟨hxlt, hx2⟩ := hx
      rcases hx2 with hx2 | ⟨p', hp', hadj⟩
      · exact ih (by omega) x hx2
      · have hip' := ih (by omega) p' hp'
        have hrpx : reach adjS mask sz p x := by
          have hsub := iter_mono adjS mask hplt (Nat.le_refl (n + 1))
          have hx' : x ∈ (expandF adjS mask sz)^[n + 1] {p} := by
            rw [Function.iterate_succ_apply', mem_expandF]
            exact ⟨hxlt, Or.inr ⟨p', hp', hadj⟩⟩
          exact iter_mono adjS mask hplt hn hx'
        have hmx : mask x = true := (adjb_mask hadj).2
        have hlabx : labelAt adjS mask sz x = i := by
          rw [← (labelAt_eq_iff hS hm hmp hmx).mpr hrpx]
          exact hlabp
        have hx2m : mask2 x = true := (hmask2 x).mpr ⟨hxlt, hmx, hlabx⟩
        have hp'2 : mask2 p' = true :=
          reach_mask adjS mask2 hp2 hip'
        have hadj2 : adjb adjS mask2 p' x = true := by
          simp only [adjb, Bool.and_eq_true] at hadj ⊢
          exact ⟨⟨hadj.1.1, hp'2⟩, hx2m⟩
        exact reach_closed adjS mask2 hplt hip' hadj2 hxlt
  exact key sz (Nat.le_refl sz) q hr

theorem classCount_one {adjS : ℕ → ℕ → Bool} {mask : ℕ → Bool} {sz : ℕ}
    (hS : ∀ p q, adjS p q = adjS q p)
    (hm : ∀ x, mask x = true → x < sz) {i : ℕ} (hi1 : 1 ≤ i)
    (hiN : i ≤ (repsList adjS mask sz).length)
    {mask2 : ℕ → Bool}
    (hmask2 : ∀ x, mask2 x = true
      ↔ x < sz ∧ mask x = true ∧ labelAt adjS mask sz x = i) :
    (repsList adjS mask2 sz).length = 1 := by
  have hm2 : ∀ x, mask2 x = true → x < sz :=
    fun x hx => ((hmask2 x).mp hx).1
  have hmask21 : ∀ x, mask2 x = true → mask x = true :=
    fun x hx => ((hmask2 x).mp hx).2.1
  have hk : i - 1 < (repsList adjS mask sz).length := by omega
  set r := (repsList adjS mask sz).get ⟨i - 1, hk⟩ with hrdef
  have hrmem : r ∈ repsList adjS mask sz := List.get_mem _ _ hk
  have hrep_r : IsRep adjS mask sz r := (mem_repsList hm r).mp hrmem
  have hrlt : r < sz := repsList_sublist_range adjS mask sz r hrmem
  have hlab_r : labelAt adjS mask sz r = i := by
    have := labelAt_rep hm hk
    rw [← hrdef] at this
    omega
  have hr2 : mask2 r = true := (hmask2 r).mpr ⟨hrlt, hrep_r.1, hlab_r⟩
  have hRr : IsRep adjS mask2 sz r := by
    refine ⟨hr2, fun q hq hreach => ?_⟩
    exact hrep_r.2 q hq (reach_mono hmask21 hreach)
  have huniq : ∀ x, IsRep adjS mask2 sz x ↔ x = r := by
    intro x
    constructor
    · intro hx
      obtain ⟨hxlt, hmx, hlabx⟩ := (hmask2 x).mp hx.1
      have hrepOfx : repOf adjS mask sz x = r := by
        rw [labelAt, if_pos hmx] at hlabx
        have hidx : (repsList adjS mask sz).indexOf (repOf adjS mask sz x)
            = i - 1 := by omega
        have hmemx := repOf_mem_repsList adjS hm hmx
        have hlt := List.indexOf_lt_length.mpr hmemx
        have hsome : (repsList adjS mask sz)[(repsList adjS mask sz).indexOf
            (repOf adjS mask sz x)]? = some (repOf adjS mask sz x) := by
          rw [List.getElem?_eq_getElem hlt, List.getElem_indexOf hlt]
        rw [hidx] at hsome
        have hsome2 : (repsList adjS mask sz)[i - 1]? = some r := by
          rw [List.getElem?_eq_getElem hk, hrdef, List.get_eq_getElem]
        exact Option.some.inj (hsome.symm.trans hsome2)
      have hreach_xr : reach adjS mask sz x r :=
        hrepOfx ▸ (repOf_spec adjS mask hxlt).1
      have hreach2 : reach adjS mask2 sz x r :=
        reach_in_class hS hm hmask2 hx.1 hreach_xr
      have hreach2' : reach adjS mask2 sz r x :=
        reach_symm hS (hm2 x hx.1) hreach2
      have h1 : ¬ x < r := fun hlt => hRr.2 x hlt hreach2'
      have h2 : ¬ r < x := fun hlt => hx.2 r hlt hreach2
      omega
    · intro hx
      subst hx
      exact hRr
  have hperm : List.Perm (repsList adjS mask2 sz) [r] := by
    rw [List.perm_ext_iff_of_nodup (repsList_nodup adjS mask2 sz)
      (List.nodup_singleton r)]
    intro x
    rw [mem_repsList hm2 x, huniq x, List.mem_singleton]
  rw [hperm.length_eq]
  rfl

/-- Embeds the inner loop body of `__relabel_core` (label.py 246-248):
`N += 1; place(im, lbl == j, N)` — pixels of the `j`-th extra component are
renumbered to the fresh label. -/
def innerStep (lbl : List ℕ) (st : List ℕ × ℕ) (j : ℕ) : List ℕ × ℕ :=
  (List.zipWith (fun v lv => if lv = j then st.2 + 1 else v) st.1 lbl, st.2 + 1)

/-- Embeds one outer iteration of `__relabel_core` (label.py 244-248):
`n = label(im == i, structure, lbl)` followed by the inner loop over
`xrange(2, n+1)` (`n - 1` values). -/
def outerStep (adjS : ℕ → ℕ → Bool) (st : List ℕ × ℕ) (i : ℕ) : List ℕ × ℕ :=
  let res := ccLabel adjS (fun p => decide (st.1.getD p 0 = i)) st.1.length
  (List.range' 2 (res.2 - 1)).foldl (innerStep res.1) st

/-- Embeds `__relabel_core(im, N, structure)` (label.py 240-249): the outer
loop over `xrange(1, N+1)` threading the `(im, N)` state. -/
def relabelCore (adjS : ℕ → ℕ → Bool) (im : List ℕ) (N : ℕ) : List ℕ × ℕ :=
  (List.range' 1 N).foldl (outerStep adjS) (im, N)

/-- Embeds `_relabel2(im, structure)` non-Cython path (label.py 250-262):
`im, N = _number2(im)` then `__relabel_core(im, N, structure)`. -/
def relabelFlat (adjS : ℕ → ℕ → Bool) (im : List ℕ) : List ℕ × ℕ :=
  relabelCore adjS (Label.numberCore im).1 (Label.numberCore im).2

/-- Modelled from the spec: the default 4-connectivity structural adjacency
used by scipy label when `structure=None`, on a width-`w` image flattened
in raster order — horizontal neighbors in the same row, vertical neighbors
in the same column. -/
def gridAdj (w : ℕ) (p q : ℕ) : Bool :=
  decide ((p / w = q / w ∧ (p + 1 = q ∨ q + 1 = p))
    ∨ (p % w = q % w ∧ (p + w = q ∨ q + w = p)))

/-- Embeds `label(im)` → `_label2(im, None)` (label.py 230-234, 294-302):
the foreground mask is `im != 0` and the connected components of the
4-connectivity grid graph are numbered consecutively. -/
def labelImage (w : ℕ) (a : List ℕ) : List ℕ × ℕ :=
  ccLabel (gridAdj w) (fun p => decide (a.getD p 0 ≠ 0)) a.length

/-- Embeds `relabel(im)` → `_relabel2(im, None)` (label.py 304-311). -/
def relabelImage (w : ℕ) (im : List ℕ) : List ℕ × ℕ :=
  relabelFlat (gridAdj w) im

theorem foldl_fixed {β γ : Type*} (f : β → γ → β) (st : β) :
    ∀ l : List γ, (∀ i ∈ l, f st i = st) → l.foldl f st = st := by
  intro l
  induction l with
  | nil => intro _; rfl
  | cons a t ih =>
    intro h
    rw [List.foldl_cons, h a (List.mem_cons_self a t)]
    exact ih (fun i hi => h i (List.mem_cons_of_mem a hi))

theorem outerStep_eq (adjS : ℕ → ℕ → Bool) (im : List ℕ) (n i : ℕ) :
    outerStep adjS (im, n) i
      = (List.range' 2
            ((ccLabel adjS (fun p => decide (im.getD p 0 = i)) im.length).2
              - 1)).foldl
          (innerStep
            (ccLabel adjS (fun p => decide (im.getD p 0 = i)) im.length).1)
          (im, n) := rfl

theorem outerStep_fixed {adjS : ℕ → ℕ → Bool} {mask : ℕ → Bool} {sz : ℕ}
    (hS : ∀ p q, adjS p q = adjS q p)
    (hm : ∀ x, mask x = true → x < sz) {i : ℕ} (hi1 : 1 ≤ i)
    (hiN : i ≤ (ccLabel adjS mask sz).2) :
    outerStep adjS ((ccLabel adjS mask sz).1, (ccLabel adjS mask sz).2) i
      = ((ccLabel adjS mask sz).1, (ccLabel adjS mask sz).2) := by
  have hmask2 : ∀ x,
      (fun p => decide ((ccLabel adjS mask sz).1.getD p 0 = i)) x = true
      ↔ x < sz ∧ mask x = true ∧ labelAt adjS mask sz x = i := by
    intro x
    simp only [decide_eq_true_eq]
    constructor
    · intro hx
      by_cases hlt : x < sz
      · rw [ccLabel_getD_lt adjS mask hlt] at hx
        have hmx : mask x = true := by
          by_contra h
          rw [Bool.not_eq_true] at h
          have h0 := (labelAt_eq_zero_iff adjS mask sz x).mpr h
          omega
        exact ⟨hlt, hmx, hx⟩
      · exfalso
        rw [ccLabel_getD_ge adjS mask (by omega)] at hx
        omega
    · rintro ⟨hlt, _, hlab⟩
      rw [ccLabel_getD_lt adjS mask hlt]
      exact hlab
  have hone := classCount_one hS hm hi1 hiN hmask2
  have hlen : (ccLabel adjS mask sz).1.length = sz := ccLabel_fst_length adjS mask sz
  rw [outerStep_eq, hlen]
  have h2 : (ccLabel adjS
      (fun p => decide ((ccLabel adjS mask sz).1.getD p 0 = i)) sz).2 = 1 :=
    hone
  rw [h2]
  rfl

theorem relabelCore_ccLabel {adjS : ℕ → ℕ → Bool} {mask : ℕ → Bool} {sz : ℕ}
    (hS : ∀ p q, adjS p q = adjS q p)
    (hm : ∀ x, mask x = true → x < sz) :
    relabelCore adjS (ccLabel adjS mask sz).1 (ccLabel adjS mask sz).2
      = ((ccLabel adjS mask sz).1, (ccLabel adjS mask sz).2) := by
  rw [relabelCore]
  apply foldl_fixed
  intro i hi
  rw [List.mem_range'_1] at hi
  exact outerStep_fixed hS hm hi.1 (by omega)

theorem relabelFlat_ccLabel {adjS : ℕ → ℕ → Bool} {mask : ℕ → Bool} {sz : ℕ}
    (hS : ∀ p q, adjS p q = adjS q p)
    (hm : ∀ x, mask x = true → x < sz) :
    relabelFlat adjS (ccLabel adjS mask sz).1
      = ((ccLabel adjS mask sz).1, (ccLabel adjS mask sz).2) := by
  have hnum : Label.numberCore (ccLabel adjS mask sz).1
      = ((ccLabel adjS mask sz).1, (ccLabel adjS mask sz).2) :=
    numberCore_of_complete (ccLabel_values hm) (ccLabel_attain hm)
  rw [relabelFlat, hnum]
  exact relabelCore_ccLabel hS hm

theorem gridAdj_symm (w : ℕ) : ∀ p q, gridAdj w p q = gridAdj w q p := by
  intro p q
  rw [gridAdj, gridAdj, decide_eq_decide]
  constructor
  · rintro (⟨h1, h2⟩ | ⟨h1, h2⟩)
    · exact Or.inl ⟨h1.symm, h2.symm⟩
    · exact Or.inr ⟨h1.symm, h2.symm⟩
  · rintro (⟨h1, h2⟩ | ⟨h1, h2⟩)
    · exact Or.inl ⟨h1.symm, h2.symm⟩
    · exact Or.inr ⟨h1.symm, h2.symm⟩

/-- Claim C2: applying `relabel` to the labeled output of `label` is
idempotent — for every image (embedded as its raster-flattened value list
`a` with width `w`) the relabeled array equals the labeled array outright
(the label-identity renaming is the identity permutation) and the label
counts agree. -/
theorem C2_relabel_label_claim (w : ℕ) (a : List ℕ) :
    (relabelImage w (labelImage w a).1).1 = (labelImage w a).1
    ∧ (relabelImage w (labelImage w a).1).2 = (labelImage w a).2 := by
  have hm : ∀ x, (fun p => decide (a.getD p 0 ≠ 0)) x = true → x < a.length := by
    intro x hx
    by_contra hge
    push_neg at hge
    rw [decide_eq_true_eq, List.getD_eq_getElem?_getD,
      List.getElem?_eq_none (by omega)] at hx
    simp at hx
  have h := relabelFlat_ccLabel (gridAdj_symm w) hm
  exact ⟨congrArg Prod.fst h, congrArg Prod.snd h⟩

end CC

end Segtools
